import Mathlib

/-!
Verification of the ZDD core of CountingNonoverlappingUnfoldings.

Shallow embedding of the C++ sources under src/cpp/spanning_tree_zdd/src:
UnfoldingFilter (hpp and cpp), SymmetryFilter.hpp, SpanningTree.cpp,
EdgeRestrictor, bigint_add, bigint_divide and the surrounding driver logic
of main.cpp.

Conventions used throughout:
* A fixed-width bitmask (uint64_t or BigUInt of N blocks) is embedded as a
  natural number; all bit positions touched by the code are below the
  machine width, so no truncation is lost.  The C++ expression
  mate AND NOT mask (on a fixed-width word) is Nat.ldiff mate mask, and
  1ULL shifted left by k is 1 <<< k.
* A DdSpec transition getChild(state, level, value) is embedded as a pure
  function returning the pair (new state, returned level); the returned
  level is an integer: 0 means reject, -1 means accept, any other value is
  the next level.
* A full top-down run of a spec along the decision sequence of an edge set
  S is the fold of getChild from the root level e down to level 1; the
  branch taken at level L is the decision of edge e - L, exactly as in the
  TdZdd evaluation order used by the sources.
-/

/-- Bit mask with a single bit set at a position: the C++ expression
1ULL shifted left by pos, also BitMaskTraits::bit(pos). -/
def bitAt (pos : ℕ) : ℕ := 1 <<< pos

/-- UnfoldingFilter::getRoot (UnfoldingFilter.cpp lines 46-56, and the
template version in UnfoldingFilter.hpp): mate starts at zero and the bit
of every MOPE edge is OR-ed in; the function returns the root level e,
which the runner below supplies separately. -/
def ufGetRoot (edges : List ℕ) : ℕ :=
  edges.foldl (fun mate edge_id => mate ||| bitAt edge_id) 0

/-- UnfoldingFilter::getChild (UnfoldingFilter.cpp lines 100-134, same
logic as UnfoldingFilter.hpp lines 215-256).  On a 0-branch with a
non-zero mate the bit of edge e - level is cleared and an empty result
rejects; on a 1-branch a set bit of edge e - level zeroes the whole mate.
Returns the new mate and the returned level (0 reject, -1 accept at
level 1, otherwise level - 1). -/
def ufGetChild (e : ℕ) (mate : ℕ) (level : ℕ) (value : ℕ) : ℕ × ℤ :=
  if value = 0 then
    if mate ≠ 0 then
      let mask := bitAt (e - level)
      let mate2 := Nat.ldiff mate mask
      if mate2 = 0 then (mate2, 0)
      else if level = 1 then (mate2, -1) else (mate2, (level : ℤ) - 1)
    else
      if level = 1 then (mate, -1) else (mate, (level : ℤ) - 1)
  else
    let mate2 := if mate &&& bitAt (e - level) ≠ 0 then 0 else mate
    if level = 1 then (mate2, -1) else (mate2, (level : ℤ) - 1)

/-- Drive UnfoldingFilter::getChild down from a given level with the
branch values dictated by the edge set S (edge i is taken iff S i); true
means the run reaches the accept terminal, false that it is rejected. -/
def ufRunFrom (e : ℕ) (S : ℕ → Bool) : ℕ → ℕ → Bool
  | _, 0 => true
  | mate, l + 1 =>
    let r := ufGetChild e mate (l + 1) (if S (e - (l + 1)) then 1 else 0)
    if r.2 = 0 then false
    else if r.2 = -1 then true
    else ufRunFrom e S r.1 l

/-- Acceptance of the full UnfoldingFilter run for the MOPE given by
edges, starting from getRoot at level e. -/
def ufAccepts (e : ℕ) (edges : List ℕ) (S : ℕ → Bool) : Bool :=
  ufRunFrom e S (ufGetRoot edges) e

lemma bitAt_eq_two_pow (pos : ℕ) : bitAt pos = 2 ^ pos := by
  simp [bitAt, Nat.shiftLeft_eq]

lemma testBit_bitAt_self (pos : ℕ) : (bitAt pos).testBit pos = true := by
  rw [bitAt_eq_two_pow]; exact Nat.testBit_two_pow_self

lemma testBit_bitAt_of_ne {pos b : ℕ} (h : pos ≠ b) :
    (bitAt pos).testBit b = false := by
  rw [bitAt_eq_two_pow]; exact Nat.testBit_two_pow_of_ne h

lemma ufGetChild_mate_zero (e level value : ℕ) :
    ufGetChild e 0 level value =
      (0, if level = 1 then -1 else (level : ℤ) - 1) := by
  rcases Nat.eq_zero_or_pos value with hv | hv
  · subst hv
    simp only [ufGetChild, if_pos rfl, ne_eq, not_true_eq_false, if_false,
      ite_self]
    split <;> rfl
  · have hv' : value ≠ 0 := Nat.pos_iff_ne_zero.mp hv
    simp only [ufGetChild, if_neg hv', Nat.zero_and, ne_eq,
      not_true_eq_false, if_false]
    split <;> rfl

lemma ufRunFrom_mate_zero (e : ℕ) (S : ℕ → Bool) :
    ∀ l, ufRunFrom e S 0 l = true := by
  intro l
  induction l with
  | zero => rfl
  | succ l ih =>
    rw [ufRunFrom]
    rw [ufGetChild_mate_zero]
    rcases Nat.eq_zero_or_pos l with hl | hl
    · subst hl; simp
    · have h1 : l + 1 ≠ 1 := by omega
      have h2 : ((l : ℤ) + 1 - 1 ≠ 0) := by
        have : (1 : ℤ) ≤ (l : ℤ) := by exact_mod_cast hl
        omega
      have h3 : ((l : ℤ) + 1 - 1 ≠ -1) := by
        have : (1 : ℤ) ≤ (l : ℤ) := by exact_mod_cast hl
        omega
      simp only [h1, if_false, Nat.cast_add, Nat.cast_one]
      simp only [h2, if_false, h3, if_false]
      exact ih

lemma and_bitAt_ne_zero (mate k : ℕ) :
    (mate &&& bitAt k ≠ 0) ↔ mate.testBit k = true := by
  rw [bitAt_eq_two_pow, Nat.and_two_pow]
  cases h : mate.testBit k <;> simp [h, Nat.pos_iff_ne_zero, pow_ne_zero]

lemma ufGetChild_val1_set {e mate level : ℕ}
    (h : mate.testBit (e - level) = true) :
    ufGetChild e mate level 1 =
      (0, if level = 1 then -1 else (level : ℤ) - 1) := by
  have hb : mate &&& bitAt (e - level) ≠ 0 := (and_bitAt_ne_zero _ _).mpr h
  simp only [ufGetChild, if_neg one_ne_zero, hb, if_pos, ite_self]
  split <;> simp

lemma ufGetChild_val1_unset {e mate level : ℕ}
    (h : mate.testBit (e - level) = false) :
    ufGetChild e mate level 1 =
      (mate, if level = 1 then -1 else (level : ℤ) - 1) := by
  have hb : ¬(mate &&& bitAt (e - level) ≠ 0) := by
    rw [and_bitAt_ne_zero, h]; exact Bool.false_ne_true
  simp only [ufGetChild, if_neg one_ne_zero, hb, if_false, ite_self]
  split <;> simp

lemma ufGetChild_val0_reject {e mate level : ℕ} (h : mate ≠ 0)
    (h2 : Nat.ldiff mate (bitAt (e - level)) = 0) :
    ufGetChild e mate level 0 = (0, 0) := by
  simp [ufGetChild, h, h2]

lemma ufGetChild_val0_cont {e mate level : ℕ} (h : mate ≠ 0)
    (h2 : Nat.ldiff mate (bitAt (e - level)) ≠ 0) :
    ufGetChild e mate level 0 =
      (Nat.ldiff mate (bitAt (e - level)),
       if level = 1 then -1 else (level : ℤ) - 1) := by
  simp only [ufGetChild, if_pos rfl, h, ne_eq, not_false_eq_true, if_true,
    if_neg h2]
  split <;> simp

lemma testBit_foldl_or (edges : List ℕ) (m0 b : ℕ) :
    ((edges.foldl (fun m i => m ||| bitAt i) m0).testBit b = true) ↔
      (m0.testBit b = true ∨ b ∈ edges) := by
  induction edges generalizing m0 with
  | nil => simp
  | cons a t ih =>
    rw [List.foldl_cons, ih]
    rw [Nat.testBit_lor]
    rcases eq_or_ne a b with rfl | hab
    · simp [testBit_bitAt_self]
    · simp [testBit_bitAt_of_ne hab, hab, Ne.symm hab]

lemma testBit_ufGetRoot (edges : List ℕ) (b : ℕ) :
    ((ufGetRoot edges).testBit b = true) ↔ b ∈ edges := by
  rw [ufGetRoot, testBit_foldl_or]
  simp [Nat.zero_testBit]

/-- Characterisation of a full UnfoldingFilter run from a given level: with
a non-zero mate whose set bits all lie among the not-yet-decided edges, the
run accepts exactly when some still-set MOPE edge is taken on a 1-branch. -/
lemma ufRunFrom_spec (e : ℕ) (S : ℕ → Bool) :
    ∀ (l : ℕ) (mate : ℕ), l + 1 ≤ e → mate ≠ 0 →
    (∀ b, mate.testBit b = true → e - (l + 1) ≤ b ∧ b < e) →
    (ufRunFrom e S mate (l + 1) = true ↔
      ∃ b, mate.testBit b = true ∧ S b = true) := by
  intro l
  induction l with
  | zero =>
    intro mate _ hm hbits
    have hbit : mate.testBit (e - 1) = true := by
      by_contra hke
      apply hm
      apply Nat.eq_of_testBit_eq
      intro i
      rw [Nat.zero_testBit]
      by_contra hi
      have hi' : mate.testBit i = true := by
        cases h : mate.testBit i
        · exact absurd h hi
        · rfl
      have := hbits i hi'
      have : i = e - 1 := by omega
      rw [this] at hi'
      exact hke hi'
    rw [ufRunFrom]
    cases hS : S (e - 1) with
    | true =>
      simp only [hS, if_true]
      rw [ufGetChild_val1_set hbit]
      norm_num
      exact ⟨e - 1, hbit, hS⟩
    | false =>
      rw [if_neg Bool.false_ne_true]
      have hz : Nat.ldiff mate (bitAt (e - 1)) = 0 := by
        apply Nat.eq_of_testBit_eq
        intro i
        rw [Nat.zero_testBit, Nat.testBit_ldiff]
        rcases eq_or_ne i (e - 1) with rfl | hne
        · simp [testBit_bitAt_self]
        · cases h : mate.testBit i
          · simp
          · have := hbits i h
            exact absurd (by omega : i = e - 1) hne
      rw [ufGetChild_val0_reject hm hz]
      norm_num
      intro b hb
      have := hbits b hb
      have hbe : b = e - 1 := by omega
      rw [hbe]
      exact hS
  | succ l ih =>
    intro mate hle hm hbits
    have hlev1 : l + 1 + 1 ≠ 1 := by omega
    have hcast0 : ((l + 1 + 1 : ℕ) : ℤ) - 1 ≠ 0 := by push_cast; omega
    have hcast1 : ((l + 1 + 1 : ℕ) : ℤ) - 1 ≠ -1 := by push_cast; omega
    rw [ufRunFrom]
    set k := e - (l + 1 + 1) with hk
    cases hS : S k with
    | true =>
      simp only [hS, if_true]
      cases hbk : mate.testBit k with
      | true =>
        rw [ufGetChild_val1_set hbk]
        simp only [if_neg hlev1, hcast0, if_false, hcast1]
        simp only [ufRunFrom_mate_zero]
        constructor
        · intro _; exact ⟨k, hbk, hS⟩
        · intro _; trivial
      | false =>
        rw [ufGetChild_val1_unset hbk]
        simp only [if_neg hlev1, hcast0, if_false, hcast1]
        rw [ih mate (by omega) hm]
        intro b hb
        have h1 := hbits b hb
        have hbk' : b ≠ k := by
          intro h; rw [h] at hb; rw [hbk] at hb; exact Bool.false_ne_true hb
        omega
    | false =>
      rw [if_neg Bool.false_ne_true]
      rcases eq_or_ne (Nat.ldiff mate (bitAt k)) 0 with hz | hz
      · rw [ufGetChild_val0_reject hm hz]
        norm_num
        intro b hb
        rcases eq_or_ne b k with rfl | hbk'
        · exact hS
        · have hcontr : (Nat.ldiff mate (bitAt k)).testBit b = true := by
            rw [Nat.testBit_ldiff, hb, testBit_bitAt_of_ne (Ne.symm hbk')]
            rfl
          rw [hz, Nat.zero_testBit] at hcontr
          exact absurd hcontr Bool.false_ne_true
      · rw [ufGetChild_val0_cont hm hz]
        simp only [if_neg hlev1, hcast0, if_false, hcast1]
        rw [ih _ (by omega) hz]
        constructor
        · rintro ⟨b, hb, hSb⟩
          rw [Nat.testBit_ldiff] at hb
          exact ⟨b, (Bool.and_eq_true_iff.mp hb).1, hSb⟩
        · rintro ⟨b, hb, hSb⟩
          have hbk' : b ≠ k := by
            intro h
            rw [h, hS] at hSb
            exact Bool.false_ne_true hSb
          refine ⟨b, ?_, hSb⟩
          rw [Nat.testBit_ldiff, hb, testBit_bitAt_of_ne (Ne.symm hbk')]
          rfl
        · intro b hb
          rw [Nat.testBit_ldiff] at hb
          have hb1 := (Bool.and_eq_true_iff.mp hb).1
          have hb2 := (Bool.and_eq_true_iff.mp hb).2
          have h1 := hbits b hb1
          have hbk' : b ≠ k := by
            intro h
            rw [h] at hb2
            rw [testBit_bitAt_self] at hb2
            simp at hb2
          omega

lemma uf_return_ne_zero {level : ℕ} (h : 1 ≤ level) :
    (if level = 1 then (-1 : ℤ) else (level : ℤ) - 1) ≠ 0 := by
  by_cases h1 : level = 1
  · simp [h1]
  · have h2 : 2 ≤ level := by omega
    have h2' : (2 : ℤ) ≤ (level : ℤ) := by exact_mod_cast h2
    simp only [h1, if_false]
    omega

/-- Claim C1, counterexample to the stated property: for the MOPE
M = [0, 1] over 2 edges and the full subset S = all edges, M is a subset
of S, yet the UnfoldingFilter run accepts S (the claim says every S with
M contained in S is rejected). -/
theorem uf_claim_counterexample :
    (∀ m ∈ [0, 1], (fun _ : ℕ => true) m = true) ∧
      ufAccepts 2 [0, 1] (fun _ => true) = true := by
  constructor
  · intro m _; rfl
  · decide

/-- Claim C1 (amended): for a non-empty MOPE M whose edges lie below e,
the UnfoldingFilter run (getRoot then getChild along all e decisions)
accepts an edge subset S exactly when S meets M, i.e. it rejects S exactly
when every MOPE edge is excluded from S (M is a subset of the complement
of S); the stated rejection condition M being a subset of S does not hold
on the code. -/
theorem uf_accepts_iff_meets_mope (e : ℕ) (M : List ℕ) (S : ℕ → Bool)
    (hM : M ≠ []) (hlt : ∀ m ∈ M, m < e) :
    ufAccepts e M S = true ↔ ∃ m ∈ M, S m = true := by
  obtain ⟨m0, hm0⟩ : ∃ m, m ∈ M := by
    cases M with
    | nil => exact absurd rfl hM
    | cons a t => exact ⟨a, List.mem_cons_self a t⟩
  have hroot_ne : ufGetRoot M ≠ 0 := by
    intro h
    have hb := (testBit_ufGetRoot M m0).mpr hm0
    rw [h, Nat.zero_testBit] at hb
    exact Bool.false_ne_true hb
  obtain ⟨l, rfl⟩ : ∃ l, e = l + 1 := ⟨e - 1, by have := hlt m0 hm0; omega⟩
  rw [ufAccepts]
  rw [ufRunFrom_spec (l + 1) S l (ufGetRoot M) (le_refl _) hroot_ne]
  · constructor
    · rintro ⟨b, hb, hSb⟩
      exact ⟨b, (testBit_ufGetRoot M b).mp hb, hSb⟩
    · rintro ⟨m, hm, hSm⟩
      exact ⟨m, (testBit_ufGetRoot M m).mpr hm, hSm⟩
  · intro b hb
    have := hlt b ((testBit_ufGetRoot M b).mp hb)
    omega

/-- Claim C1 (amended) witness at a concrete input. -/
theorem uf_accepts_iff_meets_mope_witness :
    ufAccepts 2 [0] (fun i => decide (i = 0)) = true ↔
      ∃ m ∈ [0], (fun i : ℕ => decide (i = 0)) m = true :=
  uf_accepts_iff_meets_mope 2 [0] (fun i => decide (i = 0)) (by decide)
    (by decide)

/-- Claim C5, counterexample: with 3 edges and MOPE [0], the 1-branch on
MOPE edge 0 at level 3 zeroes the mask, but the next transition at level
2 with branch value 0 does NOT return 0 (it returns level 1), because the
0-branch body is guarded by a non-zero test on the mask. -/
theorem uf_c5_counterexample :
    (ufGetChild 3 (ufGetRoot [0]) 3 1).1 = 0 ∧
      (ufGetChild 3 0 2 0).2 ≠ 0 := by decide

/-- Claim C5 (amended): once the mask is 0 a subsequent 0-branch does not
trigger the mask-empty reject; the mask stays 0, the returned level is
never the reject value 0, and the whole remaining run is accepted. -/
theorem uf_zero_mask_zero_branch (e level : ℕ) (S : ℕ → Bool)
    (h : 1 ≤ level) :
    (ufGetChild e 0 level 0).1 = 0 ∧ (ufGetChild e 0 level 0).2 ≠ 0 ∧
      ufRunFrom e S 0 level = true := by
  refine ⟨?_, ?_, ufRunFrom_mate_zero e S level⟩
  · rw [ufGetChild_mate_zero]
  · rw [ufGetChild_mate_zero]
    exact uf_return_ne_zero h

/-- Claim C5 (amended) witness at a concrete input. -/
theorem uf_zero_mask_zero_branch_witness :
    (ufGetChild 3 0 2 0).1 = 0 ∧ (ufGetChild 3 0 2 0).2 ≠ 0 ∧
      ufRunFrom 3 (fun _ => false) 0 2 = true :=
  uf_zero_mask_zero_branch 3 2 (fun _ => false) (by decide)

/-- Claim C9: the UnfoldingFilter transition with branch value 1 never
returns the reject value 0; moreover from a zero mask both branches keep
the mask zero and never reject, and every remaining run from a zero mask
is accepted at level 1. -/
theorem uf_one_branch_never_rejects (e mate level : ℕ) (S : ℕ → Bool)
    (h : 1 ≤ level) :
    (ufGetChild e mate level 1).2 ≠ 0 ∧
      (∀ v, (ufGetChild e 0 level v).1 = 0 ∧
        (ufGetChild e 0 level v).2 ≠ 0) ∧
      ufRunFrom e S 0 level = true := by
  refine ⟨?_, ?_, ufRunFrom_mate_zero e S level⟩
  · cases hbk : mate.testBit (e - level) with
    | true => rw [ufGetChild_val1_set hbk]; exact uf_return_ne_zero h
    | false => rw [ufGetChild_val1_unset hbk]; exact uf_return_ne_zero h
  · intro v
    rw [ufGetChild_mate_zero]
    exact ⟨rfl, uf_return_ne_zero h⟩

/-- Claim C9 witness at a concrete input. -/
theorem uf_one_branch_never_rejects_witness :
    (ufGetChild 4 5 3 1).2 ≠ 0 ∧
      (∀ v, (ufGetChild 4 0 3 v).1 = 0 ∧ (ufGetChild 4 0 3 v).2 ≠ 0) ∧
      ufRunFrom 4 (fun _ => true) 0 3 = true :=
  uf_one_branch_never_rejects 4 5 3 (fun _ => true) (by decide)

/-- Decimal value of a most-significant-digit-first digit list, the
number denoted by a digit string of main.cpp. -/
def valMSD (l : List ℕ) : ℕ := l.foldl (fun acc d => 10 * acc + d) 0

/-- The carry loop of bigint_add (main.cpp lines 124-140) on
least-significant-first digit lists: while digits or a carry remain, add
the next digit of each operand and the carry, emit the mod-10 digit and
keep the carry.  The two operands are consumed from the back of the
strings, which is the front of the reversed lists here. -/
def addLoop : List ℕ → List ℕ → ℕ → List ℕ
  | [], [], c => if c = 0 then [] else c % 10 :: addLoop [] [] (c / 10)
  | [], b :: bs, c => (b + c) % 10 :: addLoop [] bs ((b + c) / 10)
  | a :: as, [], c => (a + c) % 10 :: addLoop as [] ((a + c) / 10)
  | a :: as, b :: bs, c =>
    (a + b + c) % 10 :: addLoop as bs ((a + b + c) / 10)
  termination_by as bs c => (as.length + bs.length, c)
  decreasing_by
  all_goals
    first
    | (apply Prod.Lex.right
       exact Nat.div_lt_self (Nat.pos_of_ne_zero (by assumption)) (by norm_num))
    | (apply Prod.Lex.left; simp only [List.length_cons, List.length_nil]; omega)

/-- bigint_add (main.cpp lines 124-140): run the carry loop over the two
digit strings from their least significant end and reverse the collected
result back to most-significant-first order. -/
def bigint_add (a b : List ℕ) : List ℕ :=
  (addLoop a.reverse b.reverse 0).reverse

/-- The long-division loop of bigint_divide (main.cpp lines 153-161):
for each digit of the dividend, extend the running remainder, emit the
quotient digit and keep the remainder. -/
def divLoop (b : ℕ) : List ℕ → ℕ → List ℕ × ℕ
  | [], rem => ([], rem)
  | d :: ds, rem =>
    let r := rem * 10 + d
    let q := divLoop b ds (r % b)
    (r / b :: q.1, q.2)

/-- Removal of leading zeros at the end of bigint_divide (main.cpp lines
163-167): find_first_not_of fails on an all-zero string, giving the
single digit zero. -/
def stripLeadingZeros (l : List ℕ) : List ℕ :=
  let s := l.dropWhile (· == 0)
  if s.isEmpty then [0] else s

/-- bigint_divide (main.cpp lines 153-168): long division of a decimal
string by a small positive integer, returning the quotient digits with
leading zeros removed and the final remainder. -/
def bigint_divide (a : List ℕ) (b : ℕ) : List ℕ × ℕ :=
  let q := divLoop b a 0
  (stripLeadingZeros q.1, q.2)

/-- Finalisation step of run_burnside_with_bitmask (main.cpp lines
508-519): divide the accumulated Burnside sum by the group order, report
the quotient as the nonisomorphic count unconditionally, and raise the
stderr warning flag exactly when the remainder is non-zero (the code
continues and never aborts there). -/
def burnsideFinish (burnside_sum : List ℕ) (group_order : ℕ) :
    List ℕ × ℕ × Bool :=
  let qr := bigint_divide burnside_sum group_order
  (qr.1, qr.2, decide (qr.2 ≠ 0))

lemma valMSD_nil : valMSD [] = 0 := rfl

lemma valMSD_foldl (l : List ℕ) (acc : ℕ) :
    l.foldl (fun a d => 10 * a + d) acc = acc * 10 ^ l.length + valMSD l := by
  induction l generalizing acc with
  | nil => simp [valMSD]
  | cons d t ih =>
    rw [List.foldl_cons, ih]
    have h2 : valMSD (d :: t) = d * 10 ^ t.length + valMSD t := by
      rw [valMSD, List.foldl_cons]
      have := ih (10 * 0 + d)
      simpa [valMSD] using this
    rw [h2, List.length_cons]
    ring

lemma valMSD_cons (d : ℕ) (t : List ℕ) :
    valMSD (d :: t) = d * 10 ^ t.length + valMSD t := by
  rw [valMSD, List.foldl_cons]
  have := valMSD_foldl t (10 * 0 + d)
  simpa [valMSD] using this

lemma valMSD_eq_ofDigits_reverse (l : List ℕ) :
    valMSD l = Nat.ofDigits 10 l.reverse := by
  induction l with
  | nil => simp [valMSD]
  | cons d t ih =>
    rw [valMSD_cons, List.reverse_cons, Nat.ofDigits_append, ih]
    simp [Nat.ofDigits_cons, Nat.ofDigits_nil]
    ring

lemma ofDigits_addLoop : ∀ (as bs : List ℕ) (c : ℕ),
    Nat.ofDigits 10 (addLoop as bs c) =
      Nat.ofDigits 10 as + Nat.ofDigits 10 bs + c := by
  intro as bs c
  induction as, bs, c using addLoop.induct with
  | case1 => simp [addLoop]
  | case2 c hc ih =>
    rw [addLoop]
    rw [if_neg hc]
    rw [Nat.ofDigits_cons, ih]
    simp [Nat.ofDigits_nil]
    omega
  | case3 b bs c ih =>
    rw [addLoop]
    rw [Nat.ofDigits_cons]
    rw [ih]
    simp only [Nat.ofDigits_nil, Nat.ofDigits_cons]
    omega
  | case4 a as c ih =>
    rw [addLoop]
    rw [Nat.ofDigits_cons]
    rw [ih]
    simp only [Nat.ofDigits_nil, Nat.ofDigits_cons]
    omega
  | case5 a as b bs c ih =>
    rw [addLoop]
    rw [Nat.ofDigits_cons]
    rw [ih]
    simp only [Nat.ofDigits_cons]
    omega

lemma addLoop_digits_lt : ∀ (as bs : List ℕ) (c : ℕ),
    (∀ x ∈ as, x < 10) → (∀ x ∈ bs, x < 10) → c ≤ 1 →
    ∀ d ∈ addLoop as bs c, d < 10 := by
  intro as bs c
  induction as, bs, c using addLoop.induct with
  | case1 => intro _ _ _ d hd; rw [addLoop] at hd; simp at hd
  | case2 c hc ih =>
    intro _ _ hcle d hd
    rw [addLoop, if_neg hc] at hd
    rcases List.mem_cons.mp hd with rfl | hd2
    · omega
    · exact ih (by simp) (by simp) (by omega) d hd2
  | case3 b bs c ih =>
    intro _ hbs hcle d hd
    rw [addLoop] at hd
    have hb := hbs b (List.mem_cons_self b bs)
    rcases List.mem_cons.mp hd with rfl | hd2
    · omega
    · exact ih (by simp)
        (fun x hx => hbs x (List.mem_cons_of_mem b hx)) (by omega) d hd2
  | case4 a as c ih =>
    intro has _ hcle d hd
    rw [addLoop] at hd
    have ha := has a (List.mem_cons_self a as)
    rcases List.mem_cons.mp hd with rfl | hd2
    · omega
    · exact ih (fun x hx => has x (List.mem_cons_of_mem a hx))
        (by simp) (by omega) d hd2
  | case5 a as b bs c ih =>
    intro has hbs hcle d hd
    rw [addLoop] at hd
    have ha := has a (List.mem_cons_self a as)
    have hb := hbs b (List.mem_cons_self b bs)
    rcases List.mem_cons.mp hd with rfl | hd2
    · omega
    · exact ih (fun x hx => has x (List.mem_cons_of_mem a hx))
        (fun x hx => hbs x (List.mem_cons_of_mem b hx)) (by omega) d hd2

lemma addLoop_eq_nil_iff : ∀ (as bs : List ℕ) (c : ℕ),
    addLoop as bs c = [] ↔ (as = [] ∧ bs = [] ∧ c = 0) := by
  intro as bs c
  cases as with
  | cons a as =>
    cases bs with
    | cons b bs => rw [addLoop]; simp
    | nil => rw [addLoop]; simp
  | nil =>
    cases bs with
    | cons b bs => rw [addLoop]; simp
    | nil =>
      rw [addLoop]
      by_cases hc : c = 0
      · simp [hc]
      · simp [hc]

lemma getLast?_tail {x : ℕ} {xs : List ℕ}
    (h : (x :: xs).getLast? ≠ some 0) :
    xs = [] ∨ xs.getLast? ≠ some 0 := by
  cases xs with
  | nil => exact Or.inl rfl
  | cons y ys =>
    right
    rw [List.getLast?_cons_cons] at h
    exact h

lemma addLoop_nil_nil_zero : addLoop [] [] 0 = [] := by
  rw [addLoop]
  norm_num

lemma addLoop_getLast : ∀ (as bs : List ℕ) (c : ℕ),
    (∀ x ∈ as, x < 10) → (∀ x ∈ bs, x < 10) → c ≤ 1 →
    (as = [] ∨ as.getLast? ≠ some 0) →
    (bs = [] ∨ bs.getLast? ≠ some 0) →
    (addLoop as bs c = [] ∨ (addLoop as bs c).getLast? ≠ some 0) := by
  intro as bs c
  induction as, bs, c using addLoop.induct with
  | case1 => intro _ _ _ _ _; left; exact addLoop_nil_nil_zero
  | case2 c hc ih =>
    intro _ _ hcle _ _
    have hc1 : c = 1 := by omega
    subst hc1
    right
    rw [addLoop, if_neg hc]
    norm_num [addLoop_nil_nil_zero]
  | case3 b bs c ih =>
    intro _ hbs hcle _ hb0
    have hb := hbs b (List.mem_cons_self b bs)
    have hbs' : ∀ x ∈ bs, x < 10 :=
      fun x hx => hbs x (List.mem_cons_of_mem b hx)
    have hcar : (b + c) / 10 ≤ 1 := by omega
    have hb0' : bs = [] ∨ bs.getLast? ≠ some 0 := by
      rcases hb0 with h | h
      · exact absurd h (by simp)
      · exact getLast?_tail h
    have hrec := ih (by simp) hbs' hcar (Or.inl rfl) hb0'
    right
    rw [addLoop]
    rcases hrec2 : addLoop [] bs ((b + c) / 10) with _ | ⟨y, ys⟩
    · obtain ⟨-, hbs_nil, hcz⟩ := (addLoop_eq_nil_iff _ _ _).mp hrec2
      subst hbs_nil
      have hbne : b ≠ 0 := by
        rcases hb0 with h | h
        · exact absurd h (by simp)
        · intro hb0''
          subst hb0''
          exact h rfl
      simp only [List.getLast?_singleton]
      intro hcontr
      have hmz := Option.some_injective ℕ hcontr
      omega
    · rw [List.getLast?_cons_cons]
      rcases hrec with hnil | hlast
      · rw [hrec2] at hnil; exact absurd hnil (by simp)
      · rw [hrec2] at hlast; exact hlast
  | case4 a as c ih =>
    intro has _ hcle ha0 _
    have ha := has a (List.mem_cons_self a as)
    have has' : ∀ x ∈ as, x < 10 :=
      fun x hx => has x (List.mem_cons_of_mem a hx)
    have hcar : (a + c) / 10 ≤ 1 := by omega
    have ha0' : as = [] ∨ as.getLast? ≠ some 0 := by
      rcases ha0 with h | h
      · exact absurd h (by simp)
      · exact getLast?_tail h
    have hrec := ih has' (by simp) hcar ha0' (Or.inl rfl)
    right
    rw [addLoop]
    rcases hrec2 : addLoop as [] ((a + c) / 10) with _ | ⟨y, ys⟩
    · obtain ⟨has_nil, -, hcz⟩ := (addLoop_eq_nil_iff _ _ _).mp hrec2
      subst has_nil
      have hane : a ≠ 0 := by
        rcases ha0 with h | h
        · exact absurd h (by simp)
        · intro ha0''
          subst ha0''
          exact h rfl
      simp only [List.getLast?_singleton]
      intro hcontr
      have hmz := Option.some_injective ℕ hcontr
      omega
    · rw [List.getLast?_cons_cons]
      rcases hrec with hnil | hlast
      · rw [hrec2] at hnil; exact absurd hnil (by simp)
      · rw [hrec2] at hlast; exact hlast
  | case5 a as b bs c ih =>
    intro has hbs hcle ha0 hb0
    have ha := has a (List.mem_cons_self a as)
    have hb := hbs b (List.mem_cons_self b bs)
    have has' : ∀ x ∈ as, x < 10 :=
      fun x hx => has x (List.mem_cons_of_mem a hx)
    have hbs' : ∀ x ∈ bs, x < 10 :=
      fun x hx => hbs x (List.mem_cons_of_mem b hx)
    have hcar : (a + b + c) / 10 ≤ 1 := by omega
    have ha0' : as = [] ∨ as.getLast? ≠ some 0 := by
      rcases ha0 with h | h
      · exact absurd h (by simp)
      · exact getLast?_tail h
    have hb0' : bs = [] ∨ bs.getLast? ≠ some 0 := by
      rcases hb0 with h | h
      · exact absurd h (by simp)
      · exact getLast?_tail h
    have hrec := ih has' hbs' hcar ha0' hb0'
    right
    rw [addLoop]
    rcases hrec2 : addLoop as bs ((a + b + c) / 10) with _ | ⟨y, ys⟩
    · obtain ⟨has_nil, hbs_nil, hcz⟩ := (addLoop_eq_nil_iff _ _ _).mp hrec2
      subst has_nil
      subst hbs_nil
      have hane : a ≠ 0 := by
        rcases ha0 with h | h
        · exact absurd h (by simp)
        · intro ha0''
          subst ha0''
          exact h rfl
      have hbne : b ≠ 0 := by
        rcases hb0 with h | h
        · exact absurd h (by simp)
        · intro hb0''
          subst hb0''
          exact h rfl
      simp only [List.getLast?_singleton]
      intro hcontr
      have hmz := Option.some_injective ℕ hcontr
      omega
    · rw [List.getLast?_cons_cons]
      rcases hrec with hnil | hlast
      · rw [hrec2] at hnil; exact absurd hnil (by simp)
      · rw [hrec2] at hlast; exact hlast

/-- A canonical decimal digit string: digits below ten, non-empty, and no
leading zero (a leading zero only in the single string zero itself). -/
def canonDec (l : List ℕ) : Prop :=
  (∀ d ∈ l, d < 10) ∧ l ≠ [] ∧ (l.head? = some 0 → l = [0])

lemma canon_eq_zero_list {l : List ℕ} (hc : canonDec l)
    (h : valMSD l = 0) : l = [0] := by
  obtain ⟨hd, hne, hz⟩ := hc
  cases l with
  | nil => exact absurd rfl hne
  | cons d t =>
    rw [valMSD_cons] at h
    have hpow : 0 < 10 ^ t.length := Nat.pos_pow_of_pos _ (by norm_num)
    have hd0 : d = 0 := by
      rcases Nat.eq_zero_of_add_eq_zero_right h with h1
      rcases Nat.mul_eq_zero.mp h1 with h2 | h2
      · exact h2
      · omega
    subst hd0
    exact hz rfl

lemma addLoop_zero_left (b : ℕ) (bs : List ℕ) (c : ℕ) :
    addLoop [0] (b :: bs) c = addLoop [] (b :: bs) c := by
  rw [addLoop, addLoop]
  norm_num

lemma addLoop_zero_right (a : ℕ) (as : List ℕ) (c : ℕ) :
    addLoop (a :: as) [0] c = addLoop (a :: as) [] c := by
  rw [addLoop, addLoop]
  norm_num

lemma valMSD_zero_singleton : valMSD [0] = 0 := rfl

/-- Set bits of the reversed operands: a canonical operand that is not
the zero string reverses to a list whose last entry is its non-zero
leading digit. -/
lemma canon_reverse_getLast {l : List ℕ} (hc : canonDec l)
    (hl : l ≠ [0]) : l.reverse.getLast? ≠ some 0 := by
  rw [List.getLast?_reverse]
  intro h
  exact hl (hc.2.2 h)

lemma addLoop_rev_getLast (a b : List ℕ) (ha : canonDec a)
    (hb : canonDec b) (hs0 : valMSD a + valMSD b ≠ 0) :
    addLoop a.reverse b.reverse 0 = [] ∨
      (addLoop a.reverse b.reverse 0).getLast? ≠ some 0 := by
  have hda : ∀ x ∈ a.reverse, x < 10 := by
    intro x hx; exact ha.1 x (List.mem_reverse.mp hx)
  have hdb : ∀ x ∈ b.reverse, x < 10 := by
    intro x hx; exact hb.1 x (List.mem_reverse.mp hx)
  by_cases hA : a = [0]
  · by_cases hB : b = [0]
    · exfalso; apply hs0; rw [hA, hB]; rfl
    · obtain ⟨y, ys, hby⟩ : ∃ y ys, b.reverse = y :: ys := by
        cases hbr : b.reverse with
        | nil => exact absurd (List.reverse_eq_nil_iff.mp hbr) hb.2.1
        | cons y ys => exact ⟨y, ys, rfl⟩
      have hrev : a.reverse = [0] := by rw [hA]; rfl
      rw [hrev, hby, addLoop_zero_left]
      rw [hby] at hdb
      apply addLoop_getLast [] (y :: ys) 0 (by simp) hdb (by norm_num)
        (Or.inl rfl)
      right
      rw [← hby]
      exact canon_reverse_getLast hb hB
  · by_cases hB : b = [0]
    · obtain ⟨y, ys, hay⟩ : ∃ y ys, a.reverse = y :: ys := by
        cases har : a.reverse with
        | nil => exact absurd (List.reverse_eq_nil_iff.mp har) ha.2.1
        | cons y ys => exact ⟨y, ys, rfl⟩
      have hrev : b.reverse = [0] := by rw [hB]; rfl
      rw [hrev, hay, addLoop_zero_right]
      rw [hay] at hda
      apply addLoop_getLast (y :: ys) [] 0 hda (by simp) (by norm_num)
      · right
        rw [← hay]
        exact canon_reverse_getLast ha hA
      · exact Or.inl rfl
    · apply addLoop_getLast a.reverse b.reverse 0 hda hdb (by norm_num)
      · right; exact canon_reverse_getLast ha hA
      · right; exact canon_reverse_getLast hb hB

/-- Claim C10: bigint_add on two canonical decimal digit strings returns
the canonical decimal representation of their exact sum: the single
digit zero when the sum is zero, and otherwise the base-ten digit
expansion of the sum in most-significant-first order (so carries are
propagated exactly and no leading zero is produced). -/
theorem bigint_add_canonical (a b : List ℕ) (ha : canonDec a)
    (hb : canonDec b) :
    bigint_add a b =
      if valMSD a + valMSD b = 0 then [0]
      else (Nat.digits 10 (valMSD a + valMSD b)).reverse := by
  by_cases hs0 : valMSD a + valMSD b = 0
  · rw [if_pos hs0]
    have ha0 : a = [0] := canon_eq_zero_list ha (by omega)
    have hb0 : b = [0] := canon_eq_zero_list hb (by omega)
    subst ha0
    subst hb0
    rw [bigint_add]
    rw [show ([0] : List ℕ).reverse = [0] from rfl]
    rw [addLoop]
    norm_num [addLoop_nil_nil_zero]
  · rw [if_neg hs0]
    have hval : Nat.ofDigits 10 (addLoop a.reverse b.reverse 0) =
        valMSD a + valMSD b := by
      rw [ofDigits_addLoop]
      rw [← valMSD_eq_ofDigits_reverse, ← valMSD_eq_ofDigits_reverse]
      omega
    have hne : addLoop a.reverse b.reverse 0 ≠ [] := by
      intro h
      rw [h] at hval
      exact hs0 (by simpa [Nat.ofDigits_nil] using hval.symm)
    have hlast : (addLoop a.reverse b.reverse 0).getLast? ≠ some 0 := by
      rcases addLoop_rev_getLast a b ha hb hs0 with h | h
      · exact absurd h hne
      · exact h
    have hdl : ∀ d ∈ addLoop a.reverse b.reverse 0, d < 10 := by
      apply addLoop_digits_lt
      · intro x hx; exact ha.1 x (List.mem_reverse.mp hx)
      · intro x hx; exact hb.1 x (List.mem_reverse.mp hx)
      · norm_num
    have hlast2 : ∀ (h : addLoop a.reverse b.reverse 0 ≠ []),
        (addLoop a.reverse b.reverse 0).getLast h ≠ 0 := by
      intro h hz
      apply hlast
      rw [List.getLast?_eq_getLast_of_ne_nil h, hz]
    have hdig := Nat.digits_ofDigits 10 (by norm_num)
      (addLoop a.reverse b.reverse 0) hdl hlast2
    rw [bigint_add, ← hval, hdig]

/-- Claim C10 witness at a concrete input. -/
theorem bigint_add_canonical_witness :
    bigint_add [9, 9] [1] =
      if valMSD [9, 9] + valMSD [1] = 0 then [0]
      else (Nat.digits 10 (valMSD [9, 9] + valMSD [1])).reverse :=
  bigint_add_canonical [9, 9] [1] ⟨by decide, by decide, by decide⟩
    ⟨by decide, by decide, by decide⟩

lemma divLoop_length (b : ℕ) : ∀ (l : List ℕ) (rem : ℕ),
    (divLoop b l rem).1.length = l.length := by
  intro l
  induction l with
  | nil => intro rem; rfl
  | cons d ds ih =>
    intro rem
    simp only [divLoop, List.length_cons]
    rw [ih]

/-- Long-division invariant of divLoop: quotient times divisor plus the
final remainder recovers the processed value, and the remainder stays
below the divisor. -/
lemma divLoop_spec (b : ℕ) (hb : 0 < b) :
    ∀ (l : List ℕ) (rem : ℕ), rem < b →
      valMSD (divLoop b l rem).1 * b + (divLoop b l rem).2 =
          rem * 10 ^ l.length + valMSD l ∧
        (divLoop b l rem).2 < b := by
  intro l
  induction l with
  | nil =>
    intro rem hrem
    constructor
    · simp [divLoop, valMSD]
    · exact hrem
  | cons d ds ih =>
    intro rem hrem
    have hmod : (rem * 10 + d) % b < b := Nat.mod_lt _ hb
    obtain ⟨ih1, ih2⟩ := ih ((rem * 10 + d) % b) hmod
    constructor
    · simp only [divLoop]
      rw [valMSD_cons, divLoop_length, valMSD_cons, List.length_cons]
      have hdm := Nat.div_add_mod (rem * 10 + d) b
      calc ((rem * 10 + d) / b * 10 ^ ds.length +
              valMSD (divLoop b ds ((rem * 10 + d) % b)).1) * b +
            (divLoop b ds ((rem * 10 + d) % b)).2
          = (rem * 10 + d) / b * b * 10 ^ ds.length +
              (valMSD (divLoop b ds ((rem * 10 + d) % b)).1 * b +
                (divLoop b ds ((rem * 10 + d) % b)).2) := by ring
        _ = (rem * 10 + d) / b * b * 10 ^ ds.length +
              ((rem * 10 + d) % b * 10 ^ ds.length + valMSD ds) := by
              rw [ih1]
        _ = (b * ((rem * 10 + d) / b) + (rem * 10 + d) % b) *
              10 ^ ds.length + valMSD ds := by ring
        _ = (rem * 10 + d) * 10 ^ ds.length + valMSD ds := by rw [hdm]
        _ = rem * 10 ^ (ds.length + 1) + (d * 10 ^ ds.length + valMSD ds) :=
              by ring
    · simp only [divLoop]
      exact ih2

lemma valMSD_dropWhile_zero : ∀ l : List ℕ,
    valMSD (l.dropWhile (· == 0)) = valMSD l := by
  intro l
  induction l with
  | nil => rfl
  | cons d t ih =>
    by_cases hd : d = 0
    · subst hd
      rw [List.dropWhile_cons]
      norm_num
      rw [ih, valMSD_cons]
      omega
    · rw [List.dropWhile_cons]
      have hbeq : (d == 0) = false := by
        exact beq_false_of_ne hd
      rw [hbeq]
      simp

lemma valMSD_eq_zero_of_dropWhile_nil : ∀ l : List ℕ,
    l.dropWhile (· == 0) = [] → valMSD l = 0 := by
  intro l h
  have := valMSD_dropWhile_zero l
  rw [h] at this
  exact this.symm

lemma valMSD_stripLeadingZeros (l : List ℕ) :
    valMSD (stripLeadingZeros l) = valMSD l := by
  rw [stripLeadingZeros]
  by_cases h : (l.dropWhile (· == 0)).isEmpty
  · simp only [h, if_true]
    have hnil : l.dropWhile (· == 0) = [] := List.isEmpty_iff.mp h
    rw [valMSD_zero_singleton]
    exact (valMSD_eq_zero_of_dropWhile_nil l hnil).symm
  · simp only [h, if_false]
    exact valMSD_dropWhile_zero l

/-- Claim C7: dividing the accumulated Burnside sum by the group order
yields a quotient and remainder with sum = quotient * group_order +
remainder and 0 <= remainder < group_order; the quotient is reported as
the nonisomorphic count in all cases, and the warning flag is raised
exactly when the sum is not divisible by the group order (the
computation is never aborted). -/
theorem burnside_divide_correct (sum : List ℕ) (g : ℕ) (hg : 0 < g) :
    valMSD (burnsideFinish sum g).1 * g + (burnsideFinish sum g).2.1 =
        valMSD sum ∧
      (burnsideFinish sum g).2.1 < g ∧
      ((burnsideFinish sum g).2.2 = true ↔ ¬ g ∣ valMSD sum) := by
  obtain ⟨h1, h2⟩ := divLoop_spec g hg sum 0 hg
  have hfin1 : (burnsideFinish sum g).1 =
      stripLeadingZeros (divLoop g sum 0).1 := rfl
  have hfin2 : (burnsideFinish sum g).2.1 = (divLoop g sum 0).2 := rfl
  have hfin3 : (burnsideFinish sum g).2.2 =
      decide ((divLoop g sum 0).2 ≠ 0) := rfl
  have hid : valMSD (burnsideFinish sum g).1 * g +
      (burnsideFinish sum g).2.1 = valMSD sum := by
    rw [hfin1, hfin2, valMSD_stripLeadingZeros]
    omega
  refine ⟨hid, by rw [hfin2]; exact h2, ?_⟩
  have hmod : valMSD sum % g = (divLoop g sum 0).2 := by
    rw [← hid, hfin2]
    rw [Nat.add_comm, Nat.add_mul_mod_self_right]
    exact Nat.mod_eq_of_lt h2
  rw [hfin3]
  rw [Nat.dvd_iff_mod_eq_zero]
  rw [hmod]
  constructor
  · intro h
    exact of_decide_eq_true h
  · intro h
    exact decide_eq_true h

/-- Claim C7 witness at a concrete input. -/
theorem burnside_divide_correct_witness :
    valMSD (burnsideFinish [1, 7] 5).1 * 5 + (burnsideFinish [1, 7] 5).2.1 =
        valMSD [1, 7] ∧
      (burnsideFinish [1, 7] 5).2.1 < 5 ∧
      ((burnsideFinish [1, 7] 5).2.2 = true ↔ ¬ 5 ∣ valMSD [1, 7]) :=
  burnside_divide_correct [1, 7] 5 (by norm_num)

/-- Static data of one SpanningTree::getChild call (SpanningTree.cpp
lines 124-218): the edge count, the two endpoints of the current edge,
the FrontierManager position map, and the entering, frontier and leaving
vertex lists reported by the FrontierManager for the current edge.  The
FrontierManager itself is external library code, so its outputs are
taken as parameters here. -/
structure STContext where
  e : ℕ
  v1 : ℕ
  v2 : ℕ
  pos : ℕ → ℕ
  entering : List ℕ
  frontier : List ℕ
  leaving : List ℕ

/-- SpanningTree::getComp: read the component value of a vertex at its
frontier position. -/
def getComp (c : STContext) (s : ℕ → ℤ) (v : ℕ) : ℤ := s (c.pos v)

/-- SpanningTree::setComp: write the component value of a vertex at its
frontier position. -/
def setComp (c : STContext) (s : ℕ → ℤ) (v : ℕ) (x : ℤ) : ℕ → ℤ :=
  Function.update s (c.pos v) x

/-- Initialisation of entering vertices (SpanningTree.cpp lines 131-134):
every vertex entering the frontier gets its own id as component value. -/
def stEnter (c : STContext) (s : ℕ → ℤ) : ℕ → ℤ :=
  c.entering.foldl (fun t v => setComp c t v (v : ℤ)) s

/-- One step of the merge loop (SpanningTree.cpp lines 150-155): a
frontier vertex whose component equals cmin is redirected to cmax. -/
def mergeStep (c : STContext) (cmin cmax : ℤ) (t : ℕ → ℤ) (w : ℕ) :
    ℕ → ℤ :=
  if getComp c t w = cmin then setComp c t w cmax else t

/-- The merge loop over all frontier vertices (SpanningTree.cpp lines
150-155). -/
def stMergeLoop (c : STContext) (cmin cmax : ℤ) (s : ℕ → ℤ) : ℕ → ℤ :=
  c.frontier.foldl (mergeStep c cmin cmax) s

/-- The leaving-vertex loop (SpanningTree.cpp lines 170-212): each
leaving vertex must share its component with some other frontier vertex
that has not already left; on success its slot is marked -1, otherwise
the branch is pruned (none). -/
def stLeaveLoop (c : STContext) :
    List ℕ → List ℕ → (ℕ → ℤ) → Option (ℕ → ℤ)
  | _, [], s => some s
  | done, v :: vs, s =>
    let comp_found := c.frontier.any (fun w =>
      if w = v then false
      else if done.contains w then false
      else decide (getComp c s w = getComp c s v))
    if comp_found then
      stLeaveLoop c (done ++ [v]) vs (setComp c s v (-1))
    else none

/-- The tail of SpanningTree::getChild after the branch-value processing
(SpanningTree.cpp lines 159-217): the connectivity test at the last
level, then the leaving loop, then the next level. -/
def stAfter (c : STContext) (s : ℕ → ℤ) (level : ℕ) : ℤ :=
  if level = 1 then
    if getComp c s c.v1 = getComp c s c.v2 then -1 else 0
  else
    match stLeaveLoop c [] c.leaving s with
    | none => 0
    | some _ => (level : ℤ) - 1

/-- SpanningTree::getChild (SpanningTree.cpp lines 124-218): initialise
entering vertices, on a 1-branch reject a cycle or merge the two
endpoint components (smaller id redirected to larger id), then apply the
final-level test and the leaving loop. -/
def stGetChild (c : STContext) (s0 : ℕ → ℤ) (level : ℕ) (value : ℕ) :
    ℤ :=
  let s1 := stEnter c s0
  if value = 1 then
    let c1 := getComp c s1 c.v1
    let c2 := getComp c s1 c.v2
    if c1 = c2 then 0
    else stAfter c (stMergeLoop c (min c1 c2) (max c1 c2) s1) level
  else stAfter c s1 level

lemma mergeFold_spec (c : STContext) (cmin cmax : ℤ) (hne : cmin ≠ cmax) :
    ∀ (fr : List ℕ) (s : ℕ → ℤ) (p : ℕ),
      (fr.foldl (mergeStep c cmin cmax) s) p =
        if (∃ w ∈ fr, c.pos w = p) ∧ s p = cmin then cmax else s p := by
  intro fr
  induction fr with
  | nil => intro s p; simp
  | cons w0 ws ih =>
    intro s p
    rw [List.foldl_cons, ih]
    by_cases hp : c.pos w0 = p
    · by_cases hsp : s p = cmin
      · have hstep : mergeStep c cmin cmax s w0 = Function.update s p cmax := by
          rw [mergeStep, getComp, hp]
          rw [if_pos hsp]
          rw [setComp, hp]
        rw [hstep]
        have hup : Function.update s p cmax p = cmax := Function.update_same p cmax s
        rw [hup]
        have hc1 : ¬((∃ w ∈ ws, c.pos w = p) ∧ cmax = cmin) := by
          rintro ⟨-, h⟩; exact hne h.symm
        rw [if_neg hc1]
        rw [if_pos ⟨⟨w0, List.mem_cons_self w0 ws, hp⟩, hsp⟩]
      · have hstep : mergeStep c cmin cmax s w0 = s := by
          rw [mergeStep, getComp, hp]
          rw [if_neg hsp]
        rw [hstep]
        have hc1 : ¬((∃ w ∈ ws, c.pos w = p) ∧ s p = cmin) := by
          rintro ⟨-, h⟩; exact hsp h
        rw [if_neg hc1]
        have hc2 : ¬((∃ w ∈ w0 :: ws, c.pos w = p) ∧ s p = cmin) := by
          rintro ⟨-, h⟩; exact hsp h
        rw [if_neg hc2]
    · have hsp' : mergeStep c cmin cmax s w0 p = s p := by
        rw [mergeStep]
        by_cases hg : getComp c s w0 = cmin
        · rw [if_pos hg, setComp]
          exact Function.update_noteq (by exact fun h => hp h.symm) _ s
        · rw [if_neg hg]
      rw [hsp']
      have hcond : ((∃ w ∈ ws, c.pos w = p) ∧ s p = cmin) ↔
          ((∃ w ∈ w0 :: ws, c.pos w = p) ∧ s p = cmin) := by
        constructor
        · rintro ⟨⟨w, hw, hwp⟩, h2⟩
          exact ⟨⟨w, List.mem_cons_of_mem w0 hw, hwp⟩, h2⟩
        · rintro ⟨⟨w, hw, hwp⟩, h2⟩
          rcases List.mem_cons.mp hw with rfl | hw2
          · exact absurd hwp hp
          · exact ⟨⟨w, hw2, hwp⟩, h2⟩
      by_cases hcnd : (∃ w ∈ ws, c.pos w = p) ∧ s p = cmin
      · rw [if_pos hcnd, if_pos (hcond.mp hcnd)]
      · rw [if_neg hcnd, if_neg (fun h => hcnd (hcond.mpr h))]

/-- Claim C3: on a 1-branch after entering vertices are initialised to
their own ids, SpanningTree::getChild returns the reject value 0 when the
two endpoint components are equal; otherwise the merge loop rewrites
exactly the frontier positions holding the smaller of the two endpoint
components to the larger one, so the surviving representative of the
merged class is the larger component id. -/
theorem st_value1_cycle_and_merge (c : STContext) (s0 : ℕ → ℤ)
    (level : ℕ) :
    (getComp c (stEnter c s0) c.v1 = getComp c (stEnter c s0) c.v2 →
        stGetChild c s0 level 1 = 0) ∧
    (getComp c (stEnter c s0) c.v1 ≠ getComp c (stEnter c s0) c.v2 →
      ∀ w ∈ c.frontier,
        getComp c
            (stMergeLoop c
              (min (getComp c (stEnter c s0) c.v1)
                (getComp c (stEnter c s0) c.v2))
              (max (getComp c (stEnter c s0) c.v1)
                (getComp c (stEnter c s0) c.v2))
              (stEnter c s0)) w =
          if getComp c (stEnter c s0) w =
              min (getComp c (stEnter c s0) c.v1)
                (getComp c (stEnter c s0) c.v2)
          then max (getComp c (stEnter c s0) c.v1)
                (getComp c (stEnter c s0) c.v2)
          else getComp c (stEnter c s0) w) := by
  constructor
  · intro heq
    rw [stGetChild]
    simp only [if_pos rfl]
    rw [if_pos heq]
    simp
  · intro hne w hw
    have hminmax : min (getComp c (stEnter c s0) c.v1)
        (getComp c (stEnter c s0) c.v2) ≠
        max (getComp c (stEnter c s0) c.v1)
          (getComp c (stEnter c s0) c.v2) :=
      ne_of_lt (min_lt_max.mpr hne)
    rw [getComp, stMergeLoop]
    rw [mergeFold_spec c _ _ hminmax c.frontier (stEnter c s0) (c.pos w)]
    by_cases hcm : getComp c (stEnter c s0) w =
        min (getComp c (stEnter c s0) c.v1) (getComp c (stEnter c s0) c.v2)
    · rw [if_pos ⟨⟨w, hw, rfl⟩, hcm⟩, if_pos hcm]
    · rw [if_neg (fun h => hcm h.2), if_neg hcm]
      rfl

/-- Claim C3 witness at a concrete input: two vertices joined by the
current edge, both entering, frontier of both, empty leaving list. -/
theorem st_value1_cycle_and_merge_witness :
    ∀ w ∈ ([0, 1] : List ℕ),
      getComp ⟨2, 0, 1, id, [0, 1], [0, 1], []⟩
          (stMergeLoop ⟨2, 0, 1, id, [0, 1], [0, 1], []⟩
            (min
              (getComp ⟨2, 0, 1, id, [0, 1], [0, 1], []⟩
                (stEnter ⟨2, 0, 1, id, [0, 1], [0, 1], []⟩ fun _ => 0) 0)
              (getComp ⟨2, 0, 1, id, [0, 1], [0, 1], []⟩
                (stEnter ⟨2, 0, 1, id, [0, 1], [0, 1], []⟩ fun _ => 0) 1))
            (max
              (getComp ⟨2, 0, 1, id, [0, 1], [0, 1], []⟩
                (stEnter ⟨2, 0, 1, id, [0, 1], [0, 1], []⟩ fun _ => 0) 0)
              (getComp ⟨2, 0, 1, id, [0, 1], [0, 1], []⟩
                (stEnter ⟨2, 0, 1, id, [0, 1], [0, 1], []⟩ fun _ => 0) 1))
            (stEnter ⟨2, 0, 1, id, [0, 1], [0, 1], []⟩ fun _ => 0)) w =
        if getComp ⟨2, 0, 1, id, [0, 1], [0, 1], []⟩
            (stEnter ⟨2, 0, 1, id, [0, 1], [0, 1], []⟩ fun _ => 0) w =
            min
              (getComp ⟨2, 0, 1, id, [0, 1], [0, 1], []⟩
                (stEnter ⟨2, 0, 1, id, [0, 1], [0, 1], []⟩ fun _ => 0) 0)
              (getComp ⟨2, 0, 1, id, [0, 1], [0, 1], []⟩
                (stEnter ⟨2, 0, 1, id, [0, 1], [0, 1], []⟩ fun _ => 0) 1)
        then max
              (getComp ⟨2, 0, 1, id, [0, 1], [0, 1], []⟩
                (stEnter ⟨2, 0, 1, id, [0, 1], [0, 1], []⟩ fun _ => 0) 0)
              (getComp ⟨2, 0, 1, id, [0, 1], [0, 1], []⟩
                (stEnter ⟨2, 0, 1, id, [0, 1], [0, 1], []⟩ fun _ => 0) 1)
        else getComp ⟨2, 0, 1, id, [0, 1], [0, 1], []⟩
            (stEnter ⟨2, 0, 1, id, [0, 1], [0, 1], []⟩ fun _ => 0) w :=
  (st_value1_cycle_and_merge ⟨2, 0, 1, id, [0, 1], [0, 1], []⟩
    (fun _ => 0) 2).2 (by decide)

/-- EdgeRestrictor::getChild (main.cpp lines 101-108): the state is the
constant integer 0 and is omitted; an edge below the split depth must
take the branch value given by the corresponding bit of the partition
pattern, otherwise there is no constraint; at level 1 and below the spec
accepts. -/
def erGetChild (num_edges depth partition level value : ℕ) : ℤ :=
  let edge_idx := num_edges - level
  if edge_idx < depth then
    if value ≠ (partition >>> edge_idx) &&& 1 then 0
    else if level ≤ 1 then -1 else (level : ℤ) - 1
  else if level ≤ 1 then -1 else (level : ℤ) - 1

/-- Drive EdgeRestrictor::getChild down from a given level with the
branch values dictated by the edge set S. -/
def erRunFrom (e d p : ℕ) (S : ℕ → Bool) : ℕ → Bool
  | 0 => true
  | l + 1 =>
    let r := erGetChild e d p (l + 1) (if S (e - (l + 1)) then 1 else 0)
    if r = 0 then false
    else if r = -1 then true
    else erRunFrom e d p S l

/-- Acceptance of the full EdgeRestrictor run from the root level e. -/
def erAccepts (e d p : ℕ) (S : ℕ → Bool) : Bool := erRunFrom e d p S e

/-- Restriction of a finite edge assignment to an unbounded one, used to
feed the runner with functions over Fin e. -/
def extS (e : ℕ) (S : Fin e → Bool) : ℕ → Bool :=
  fun n => if h : n < e then S ⟨n, h⟩ else false

lemma erGetChild_in_reject {e d p level value : ℕ} (h : e - level < d)
    (hv : value ≠ (p >>> (e - level)) &&& 1) :
    erGetChild e d p level value = 0 := by
  rw [erGetChild]
  simp only [if_pos h, if_pos hv]

lemma erGetChild_in_cont {e d p level value : ℕ} (h : e - level < d)
    (hv : value = (p >>> (e - level)) &&& 1) :
    erGetChild e d p level value =
      if level ≤ 1 then -1 else (level : ℤ) - 1 := by
  rw [erGetChild]
  simp only [if_pos h, ne_eq, hv, not_true_eq_false, if_false]

lemma erGetChild_out {e d p level value : ℕ} (h : ¬ e - level < d) :
    erGetChild e d p level value =
      if level ≤ 1 then -1 else (level : ℤ) - 1 := by
  rw [erGetChild]
  simp only [if_neg h]

/-- Characterisation of a full EdgeRestrictor run: the run from a level
accepts exactly when every remaining edge below the split depth carries
the branch value prescribed by the corresponding bit of the pattern. -/
lemma erRunFrom_spec (e d p : ℕ) (S : ℕ → Bool) :
    ∀ l, l ≤ e →
      (erRunFrom e d p S l = true ↔
        ∀ k, e - l ≤ k → k < d → k < e →
          (if S k then 1 else 0 : ℕ) = (p >>> k) &&& 1) := by
  intro l
  induction l with
  | zero =>
    intro _
    constructor
    · intro _ k h1 h2 h3
      exact absurd h3 (by omega)
    · intro _; rfl
  | succ l ih =>
    intro hle
    have hk0 : e - (l + 1) < e := by omega
    rw [erRunFrom]
    by_cases hin : e - (l + 1) < d
    · by_cases hv : (if S (e - (l + 1)) then 1 else 0 : ℕ) =
          (p >>> (e - (l + 1))) &&& 1
      · rw [erGetChild_in_cont hin hv]
        rcases Nat.eq_zero_or_pos l with hl0 | hlpos
        · subst hl0
          norm_num
          intro k h1 h2 h3
          have hke : k = e - 1 := by omega
          subst hke
          have hv' := hv
          rw [Nat.and_one_is_mod] at hv'
          norm_num at hv'
          exact hv'
        · have h1 : ¬ (l + 1 ≤ 1) := by omega
          rw [if_neg h1]
          have h2 : ((l : ℤ) + 1 - 1 ≠ 0) := by
            have : (1 : ℤ) ≤ (l : ℤ) := by exact_mod_cast hlpos
            omega
          have h3 : ((l : ℤ) + 1 - 1 ≠ -1) := by
            have : (1 : ℤ) ≤ (l : ℤ) := by exact_mod_cast hlpos
            omega
          push_cast
          rw [if_neg h2, if_neg h3]
          rw [ih (by omega)]
          constructor
          · intro hall k h1 h2 h3
            rcases eq_or_ne k (e - (l + 1)) with rfl | hne
            · exact hv
            · exact hall k (by omega) h2 h3
          · intro hall k h1 h2 h3
            exact hall k (by omega) h2 h3
      · rw [erGetChild_in_reject hin hv]
        norm_num
        refine ⟨e - (l + 1), by omega, hin, hk0, ?_⟩
        intro hx
        apply hv
        rw [Nat.and_one_is_mod]
        exact hx
    · rw [erGetChild_out hin]
      rcases Nat.eq_zero_or_pos l with hl0 | hlpos
      · subst hl0
        norm_num
        intro k h1 h2 h3
        have hke : k = e - 1 := by omega
        subst hke
        exact absurd h2 (by omega)
      · have h1 : ¬ (l + 1 ≤ 1) := by omega
        rw [if_neg h1]
        have h2 : ((l : ℤ) + 1 - 1 ≠ 0) := by
          have : (1 : ℤ) ≤ (l : ℤ) := by exact_mod_cast hlpos
          omega
        have h3 : ((l : ℤ) + 1 - 1 ≠ -1) := by
          have : (1 : ℤ) ≤ (l : ℤ) := by exact_mod_cast hlpos
          omega
        push_cast
        rw [if_neg h2, if_neg h3]
        rw [ih (by omega)]
        constructor
        · intro hall k h1' h2' h3'
          rcases eq_or_ne k (e - (l + 1)) with rfl | hne
          · exact absurd h2' hin
          · exact hall k (by omega) h2' h3'
        · intro hall k h1' h2' h3'
          exact hall k (by omega) h2' h3'

/-- The little-endian number with d bits read from a predicate; used to
name the unique partition pattern accepted on a given edge set. -/
def ofBits (f : ℕ → Bool) : ℕ → ℕ
  | 0 => 0
  | d + 1 => (if f 0 then 1 else 0) + 2 * ofBits (fun i => f (i + 1)) d

lemma ofBits_lt (f : ℕ → Bool) : ∀ d, ofBits f d < 2 ^ d := by
  intro d
  induction d generalizing f with
  | zero => simp [ofBits]
  | succ d ih =>
    rw [ofBits]
    have h := ih (fun i => f (i + 1))
    have hp : (2 : ℕ) ^ (d + 1) = 2 * 2 ^ d := by ring
    have hb : (if f 0 = true then 1 else 0 : ℕ) ≤ 1 := by
      by_cases hf : f 0 = true <;> simp [hf]
    omega

lemma testBit_ofBits (f : ℕ → Bool) :
    ∀ d k, k < d → (ofBits f d).testBit k = f k := by
  intro d
  induction d generalizing f with
  | zero => intro k hk; exact absurd hk (by omega)
  | succ d ih =>
    intro k hk
    rw [ofBits]
    cases k with
    | zero =>
      rw [Nat.testBit_to_div_mod]
      cases hf : f 0 with
      | true => norm_num [Nat.add_mul_mod_self_left]
      | false => norm_num [Nat.add_mul_mod_self_left]
    | succ k =>
      rw [Nat.testBit_add_one]
      have hb : (if f 0 = true then 1 else 0 : ℕ) ≤ 1 := by
        by_cases hf : f 0 = true <;> simp [hf]
      have hdiv : ((if f 0 then 1 else 0) + 2 * ofBits (fun i => f (i + 1)) d) / 2 =
          ofBits (fun i => f (i + 1)) d := by
        omega
      rw [hdiv]
      exact ih (fun i => f (i + 1)) k (by omega)

lemma bit_cond_iff (S : ℕ → Bool) (p k : ℕ) :
    ((if S k then 1 else 0 : ℕ) = (p >>> k) &&& 1) ↔ S k = p.testBit k := by
  rw [Nat.and_one_is_mod, Nat.shiftRight_eq_div_pow, Nat.testBit_to_div_mod]
  have h2 : p / 2 ^ k % 2 = 0 ∨ p / 2 ^ k % 2 = 1 := by omega
  cases hS : S k <;> rcases h2 with h | h <;> simp [h]

/-- Claim C4: for a split depth below the edge count, a pattern p is
accepted by EdgeRestrictor on an edge set exactly when the first d
decisions agree with the low d bits of p; consequently each edge set is
accepted by exactly one pattern in [0, 2 pow d), and for any finite
family of edge assignments the per-pattern filtered cardinalities sum to
the cardinality of the family (disjoint cover, so per-partition counts
add up to the unpartitioned counts). -/
theorem er_exactly_one_partition (e d : ℕ) (hd : d < e) :
    (∀ (S : ℕ → Bool) (p : ℕ),
        (erAccepts e d p S = true ↔ ∀ k < d, S k = p.testBit k)) ∧
    (∀ S : ℕ → Bool, ∃! p, p < 2 ^ d ∧ erAccepts e d p S = true) ∧
    (∀ F : Finset (Fin e → Bool),
        ∑ p ∈ Finset.range (2 ^ d),
            (F.filter (fun S => erAccepts e d p (extS e S) = true)).card =
          F.card) := by
  have hiff : ∀ (S : ℕ → Bool) (p : ℕ),
      (erAccepts e d p S = true ↔ ∀ k < d, S k = p.testBit k) := by
    intro S p
    rw [erAccepts, erRunFrom_spec e d p S e (le_refl e)]
    constructor
    · intro h k hk
      exact (bit_cond_iff S p k).mp (h k (by omega) hk (by omega))
    · intro h k _ hk _
      exact (bit_cond_iff S p k).mpr (h k hk)
  have huniq : ∀ (S : ℕ → Bool) (q : ℕ), q < 2 ^ d →
      (∀ k < d, S k = q.testBit k) → q = ofBits S d := by
    intro S q hq hbits
    apply Nat.eq_of_testBit_eq
    intro k
    by_cases hk : k < d
    · rw [testBit_ofBits S d k hk]
      exact (hbits k hk).symm
    · have h1 : q.testBit k = false :=
        Nat.testBit_eq_false_of_lt
          (lt_of_lt_of_le hq (Nat.pow_le_pow_right (by norm_num) (by omega)))
      have h2 : (ofBits S d).testBit k = false :=
        Nat.testBit_eq_false_of_lt
          (lt_of_lt_of_le (ofBits_lt S d)
            (Nat.pow_le_pow_right (by norm_num) (by omega)))
      rw [h1, h2]
  refine ⟨hiff, ?_, ?_⟩
  · intro S
    refine ⟨ofBits S d, ⟨ofBits_lt S d, ?_⟩, ?_⟩
    · rw [hiff]
      intro k hk
      exact (testBit_ofBits S d k hk).symm
    · rintro q ⟨hq1, hq2⟩
      exact huniq S q hq1 ((hiff S q).mp hq2)
  · intro F
    have hmaps : ∀ S ∈ F, ofBits (extS e S) d ∈ Finset.range (2 ^ d) :=
      fun S _ => Finset.mem_range.mpr (ofBits_lt _ d)
    rw [Finset.card_eq_sum_card_fiberwise hmaps]
    apply Finset.sum_congr rfl
    intro p hp
    congr 1
    apply Finset.filter_congr
    intro S _
    have hp2 : p < 2 ^ d := Finset.mem_range.mp hp
    constructor
    · intro h
      exact (huniq (extS e S) p hp2 ((hiff (extS e S) p).mp h)).symm
    · intro h
      rw [hiff]
      intro k hk
      rw [← h]
      exact (testBit_ofBits (extS e S) d k hk).symm

/-- Claim C4 witness at a concrete input. -/
theorem er_exactly_one_partition_witness :
    (∀ (S : ℕ → Bool) (p : ℕ),
        (erAccepts 2 1 p S = true ↔ ∀ k < 1, S k = p.testBit k)) ∧
    (∀ S : ℕ → Bool, ∃! p, p < 2 ^ 1 ∧ erAccepts 2 1 p S = true) ∧
    (∀ F : Finset (Fin 2 → Bool),
        ∑ p ∈ Finset.range (2 ^ 1),
            (F.filter (fun S => erAccepts 2 1 p (extS 2 S) = true)).card =
          F.card) :=
  er_exactly_one_partition 2 1 (by norm_num)

/-- Command-line and file-system environment of one invocation of main
(main.cpp lines 738-1102), with the file system abstracted: whether each
optional input file was named, whether it could be opened, and the
already-parsed content of the MOPE file (the JSON text parsing of
extract_edges_from_json is not modelled). -/
structure MainInput where
  num_edges : ℕ
  split_depth : ℕ
  edge_sets_given : Bool
  edge_sets_openable : Bool
  edge_sets_lines : List (List ℕ)
  autos_given : Bool
  autos_ok : Bool
  autos_perms_sized : Bool

/-- load_mopes_from_edge_sets (main.cpp lines 223-249): when the file
cannot be opened an error line goes to stderr and the EMPTY list is
returned (no exit); otherwise the non-empty edge sets of the lines are
collected. -/
def load_mopes_model (openable : Bool) (lines : List (List ℕ)) :
    List (List ℕ) :=
  if !openable then []
  else lines.filter (fun edges => !edges.isEmpty)

/-- Exit behaviour of main (main.cpp lines 787-1102): the pair of the
process exit code and whether the JSON results are produced on stdout.
Follows the source order: edge-count cap, split-depth check, MOPE
loading (a failure only warns), automorphism loading (a failure returns
1), permutation size check (returns 1), then the pipeline runs and main
returns 0. -/
def mainResult (inp : MainInput) : ℕ × Bool :=
  if inp.num_edges > 448 then (1, false)
  else if inp.split_depth > 0 ∧ inp.split_depth ≥ inp.num_edges then
    (1, false)
  else
    let _MOPEs :=
      if inp.edge_sets_given then
        load_mopes_model inp.edge_sets_openable inp.edge_sets_lines
      else []
    if inp.autos_given ∧ (¬ inp.autos_ok ∨ ¬ inp.autos_perms_sized) then
      (1, false)
    else (0, true)

/-- Claim C6, failing evaluation: with an edge_sets.jsonl file that
cannot be opened (and no other problem), load_mopes_from_edge_sets
returns the empty MOPE list, main only warns, the pipeline runs, results
are produced and the exit code is 0 — not the non-zero exit the claim
requires.  By contrast an unopenable automorphisms file does exit 1
without results. -/
theorem main_unreadable_edge_sets_exit0 :
    load_mopes_model false [[0, 1]] = [] ∧
      mainResult ⟨12, 0, true, false, [[0, 1]], false, true, true⟩ =
        (0, true) ∧
      mainResult ⟨12, 0, false, true, [], true, false, true⟩ =
        (1, false) := by
  refine ⟨rfl, rfl, rfl⟩

/-- The two lookup tables built by the SymmetryFilter constructor
(SymmetryFilter.hpp lines 82-83): orbit index per edge (-1 for a trivial
orbit) and the representative flag per edge. -/
structure SymState where
  edge_to_orbit : ℕ → ℤ
  is_representative : ℕ → Bool

/-- The while loop of the SymmetryFilter constructor (SymmetryFilter.hpp
lines 125-131): trace the orbit of an edge by following the permutation
until a visited edge is met, marking edges visited on the way.  Each
iteration visits a new edge, so fuel e + 1 is enough for the loop to
finish on its own condition. -/
def traceOrbit (perm : ℕ → ℕ) : ℕ → (ℕ → Bool) → ℕ → List ℕ × (ℕ → Bool)
  | 0, visited, _ => ([], visited)
  | fuel + 1, visited, j =>
    if visited j then ([], visited)
    else
      let r := traceOrbit perm fuel (Function.update visited j true) (perm j)
      (j :: r.1, r.2)

/-- std::min_element over a non-empty vector (SymmetryFilter.hpp line
137). -/
def minElem : List ℕ → ℕ
  | [] => 0
  | x :: xs => xs.foldl min x

/-- The orbit assignment loop (SymmetryFilter.hpp lines 135-142): every
edge of a non-trivial orbit gets the orbit id, and the minimal edge is
flagged as representative. -/
def assignOrbit (orbit : List ℕ) (orbit_id : ℕ) (min_edge : ℕ)
    (st : SymState) : SymState :=
  orbit.foldl (fun t edge_idx =>
    ⟨Function.update t.edge_to_orbit edge_idx (orbit_id : ℤ),
     Function.update t.is_representative edge_idx
       (decide (edge_idx = min_edge))⟩) st

/-- One iteration of the constructor loop over the starting edge i
(SymmetryFilter.hpp lines 120-143): skip visited edges, trace the orbit,
and assign an orbit id only when the orbit is non-trivial.  The
accumulator carries (visited, tables, num_orbits). -/
def buildStep (perm : ℕ → ℕ) (e : ℕ)
    (acc : (ℕ → Bool) × SymState × ℕ) (i : ℕ) :
    (ℕ → Bool) × SymState × ℕ :=
  if acc.1 i then acc
  else
    let t := traceOrbit perm (e + 1) acc.1 i
    if 1 < t.1.length then
      (t.2, assignOrbit t.1 acc.2.2 (minElem t.1) acc.2.1, acc.2.2 + 1)
    else (t.2, acc.2.1, acc.2.2)

/-- Initial accumulator of the constructor loop: nothing visited, all
orbit entries -1, no representative, zero orbits. -/
def buildInit : (ℕ → Bool) × SymState × ℕ :=
  (fun _ => false, ⟨fun _ => (-1 : ℤ), fun _ => false⟩, 0)

/-- SymmetryFilter::SymmetryFilter (SymmetryFilter.hpp lines 110-144):
run the constructor loop over all edges in index order and return the
tables together with the number of non-trivial orbits. -/
def buildSym (e : ℕ) (perm : ℕ → ℕ) : SymState × ℕ :=
  let r := (List.range e).foldl (buildStep perm e) buildInit
  (r.2.1, r.2.2)

/-- SymmetryFilter::getChild (SymmetryFilter.hpp lines 184-211): edges
of trivial orbits are unconstrained; the representative records its
decision in the mask bit of its orbit; a later orbit member is rejected
exactly when its branch value disagrees with the recorded decision. -/
def symGetChild (e : ℕ) (st : SymState) (mask : ℕ) (level : ℕ)
    (value : ℕ) : ℕ × ℤ :=
  let edge_index := e - level
  let orbit := st.edge_to_orbit edge_index
  if 0 ≤ orbit then
    if st.is_representative edge_index then
      (if value = 1 then mask ||| bitAt orbit.toNat else mask,
       if level = 1 then -1 else (level : ℤ) - 1)
    else
      if (mask &&& bitAt orbit.toNat ≠ 0) ∧ value = 0 then (mask, 0)
      else if ¬ (mask &&& bitAt orbit.toNat ≠ 0) ∧ value = 1 then (mask, 0)
      else (mask, if level = 1 then -1 else (level : ℤ) - 1)
  else (mask, if level = 1 then -1 else (level : ℤ) - 1)

/-- Drive SymmetryFilter::getChild down from a given level with the
branch values dictated by the edge set S. -/
def symRunFrom (e : ℕ) (st : SymState) (S : ℕ → Bool) : ℕ → ℕ → Bool
  | _, 0 => true
  | mask, l + 1 =>
    let r := symGetChild e st mask (l + 1) (if S (e - (l + 1)) then 1 else 0)
    if r.2 = 0 then false
    else if r.2 = -1 then true
    else symRunFrom e st S r.1 l

/-- Acceptance of the full SymmetryFilter run: construct the tables from
the permutation, start with mask 0 at root level e, and drive down. -/
def symAccepts (e : ℕ) (perm : ℕ → ℕ) (S : ℕ → Bool) : Bool :=
  symRunFrom e (buildSym e perm).1 S 0 e

lemma symGetChild_trivial {e : ℕ} {st : SymState} {mask level value : ℕ}
    (h : st.edge_to_orbit (e - level) = -1) :
    symGetChild e st mask level value =
      (mask, if level = 1 then -1 else (level : ℤ) - 1) := by
  rw [symGetChild]
  simp only [h]
  norm_num

lemma symRunFrom_all_trivial (e : ℕ) (st : SymState) (S : ℕ → Bool)
    (h : ∀ j, st.edge_to_orbit j = -1) :
    ∀ l mask, symRunFrom e st S mask l = true := by
  intro l
  induction l with
  | zero => intro mask; rfl
  | succ l ih =>
    intro mask
    rw [symRunFrom]
    rw [symGetChild_trivial (h (e - (l + 1)))]
    rcases Nat.eq_zero_or_pos l with hl0 | hlpos
    · subst hl0; simp
    · have h1 : l + 1 ≠ 1 := by omega
      have h2 : ((l : ℤ) + 1 - 1 ≠ 0) := by
        have : (1 : ℤ) ≤ (l : ℤ) := by exact_mod_cast hlpos
        omega
      have h3 : ((l : ℤ) + 1 - 1 ≠ -1) := by
        have : (1 : ℤ) ≤ (l : ℤ) := by exact_mod_cast hlpos
        omega
      simp only [h1, if_false, Nat.cast_add, Nat.cast_one]
      simp only [h2, if_false, h3, if_false]
      exact ih mask

lemma traceOrbit_fixed (perm : ℕ → ℕ) (fuel : ℕ) (vis : ℕ → Bool)
    (i : ℕ) (hid : perm i = i) (hvis : vis i = false) :
    traceOrbit perm (fuel + 1) vis i = ([i], Function.update vis i true) := by
  rw [traceOrbit]
  rw [hvis]
  norm_num
  rw [hid]
  cases fuel with
  | zero =>
    rw [traceOrbit]
    exact ⟨rfl, rfl⟩
  | succ fuel =>
    rw [traceOrbit]
    rw [Function.update_same]
    norm_num

lemma buildFold_identity (perm : ℕ → ℕ) (e : ℕ) :
    ∀ (L : List ℕ), (∀ i ∈ L, perm i = i) →
    ∀ acc : (ℕ → Bool) × SymState × ℕ,
      (L.foldl (buildStep perm e) acc).2.1 = acc.2.1 ∧
        (L.foldl (buildStep perm e) acc).2.2 = acc.2.2 := by
  intro L
  induction L with
  | nil => intro _ acc; exact ⟨rfl, rfl⟩
  | cons i L ih =>
    intro hL acc
    rw [List.foldl_cons]
    have hstep : (buildStep perm e acc i).2.1 = acc.2.1 ∧
        (buildStep perm e acc i).2.2 = acc.2.2 := by
      rw [buildStep]
      cases hv : acc.1 i with
      | true => norm_num
      | false =>
        norm_num
        rw [traceOrbit_fixed perm e acc.1 i
          (hL i (List.mem_cons_self i L)) hv]
        norm_num
    have hrest := ih (fun j hj => hL j (List.mem_cons_of_mem i hj))
      (buildStep perm e acc i)
    rw [hrest.1, hrest.2, hstep.1, hstep.2]
    exact ⟨rfl, rfl⟩

/-- Claim C8: for the identity edge permutation (as detected by the
driver: perm j = j for every edge j), the constructed SymmetryFilter has
no non-trivial orbit, its run never rejects, so subsetting with it keeps
every member of the family and the general path returns exactly the
cardinality that the identity shortcut reports without subsetting. -/
theorem sym_identity_shortcut (e : ℕ) (perm : ℕ → ℕ)
    (hperm : ∀ j < e, perm j = j) :
    (∀ S : ℕ → Bool, symAccepts e perm S = true) ∧
    (∀ F : Finset (Fin e → Bool),
        (F.filter (fun S => symAccepts e perm (extS e S) = true)).card =
          F.card) := by
  have hb : (buildSym e perm).1 = buildInit.2.1 :=
    (buildFold_identity perm e (List.range e)
      (fun i hi => hperm i (List.mem_range.mp hi)) buildInit).1
  have hacc : ∀ S : ℕ → Bool, symAccepts e perm S = true := by
    intro S
    rw [symAccepts, hb]
    apply symRunFrom_all_trivial
    intro j
    rfl
  refine ⟨hacc, ?_⟩
  intro F
  rw [Finset.filter_true_of_mem]
  intro S _
  exact hacc (extS e S)

/-- Claim C8 witness at a concrete input. -/
theorem sym_identity_shortcut_witness :
    (∀ S : ℕ → Bool, symAccepts 2 (fun j => j) S = true) ∧
    (∀ F : Finset (Fin 2 → Bool),
        (F.filter (fun S => symAccepts 2 (fun j => j) (extS 2 S) = true)).card =
          F.card) :=
  sym_identity_shortcut 2 (fun j => j) (by decide)

/-- Two edges lie on the same orbit of the permutation when one is
reachable from the other by iterating the permutation. -/
def sameCyc (perm : ℕ → ℕ) (x y : ℕ) : Prop := ∃ n, perm^[n] x = y

lemma iter_lt {perm : ℕ → ℕ} {e : ℕ} (hlt : ∀ i < e, perm i < e) :
    ∀ (n x : ℕ), x < e → perm^[n] x < e := by
  intro n
  induction n with
  | zero => intro x hx; exact hx
  | succ n ih =>
    intro x hx
    rw [Function.iterate_succ_apply']
    exact hlt _ (ih x hx)

lemma iter_inj {perm : ℕ → ℕ} {e : ℕ} (hlt : ∀ i < e, perm i < e)
    (hinj : ∀ i < e, ∀ j < e, perm i = perm j → i = j) :
    ∀ (n x y : ℕ), x < e → y < e → perm^[n] x = perm^[n] y → x = y := by
  intro n
  induction n with
  | zero => intro x y _ _ h; exact h
  | succ n ih =>
    intro x y hx hy h
    rw [Function.iterate_succ_apply', Function.iterate_succ_apply'] at h
    exact ih x y hx hy
      (hinj _ (iter_lt hlt n x hx) _ (iter_lt hlt n y hy) h)

lemma exists_period {perm : ℕ → ℕ} {e : ℕ} (hlt : ∀ i < e, perm i < e)
    (hinj : ∀ i < e, ∀ j < e, perm i = perm j → i = j) (x : ℕ)
    (hx : x < e) : ∃ c, 0 < c ∧ c ≤ e ∧ perm^[c] x = x := by
  have hmaps : ∀ n ∈ Finset.range (e + 1),
      perm^[n] x ∈ Finset.range e := by
    intro n _
    exact Finset.mem_range.mpr (iter_lt hlt n x hx)
  have hcard : (Finset.range e).card < (Finset.range (e + 1)).card := by
    simp
  obtain ⟨a, ha, b, hb, hab, heq⟩ :=
    Finset.exists_ne_map_eq_of_card_lt_of_maps_to hcard hmaps
  rcases Nat.lt_or_ge a b with hlt2 | hge
  · refine ⟨b - a, by omega, by
      have := Finset.mem_range.mp hb; omega, ?_⟩
    have hsplit : perm^[a] (perm^[b - a] x) = perm^[a] x := by
      rw [← Function.iterate_add_apply]
      rw [show a + (b - a) = b from by omega]
      exact heq.symm
    exact iter_inj hlt hinj a _ x (iter_lt hlt _ x hx) hx hsplit
  · have hlt2 : b < a := by omega
    refine ⟨a - b, by omega, by
      have := Finset.mem_range.mp ha; omega, ?_⟩
    have hsplit : perm^[b] (perm^[a - b] x) = perm^[b] x := by
      rw [← Function.iterate_add_apply]
      rw [show b + (a - b) = a from by omega]
      exact heq
    exact iter_inj hlt hinj b _ x (iter_lt hlt _ x hx) hx hsplit

lemma iter_period_mul {perm : ℕ → ℕ} {c x : ℕ} (hc : perm^[c] x = x) :
    ∀ k, perm^[c * k] x = x := by
  intro k
  induction k with
  | zero => rfl
  | succ k ih =>
    rw [show c * (k + 1) = c * k + c from by ring]
    rw [Function.iterate_add_apply]
    rw [hc]
    exact ih

lemma sameCyc_refl (perm : ℕ → ℕ) (x : ℕ) : sameCyc perm x x := ⟨0, rfl⟩

lemma sameCyc_step (perm : ℕ → ℕ) (x : ℕ) : sameCyc perm x (perm x) :=
  ⟨1, rfl⟩

lemma sameCyc_trans {perm : ℕ → ℕ} {x y z : ℕ} (h1 : sameCyc perm x y)
    (h2 : sameCyc perm y z) : sameCyc perm x z := by
  obtain ⟨m, hm⟩ := h1
  obtain ⟨n, hn⟩ := h2
  exact ⟨n + m, by rw [Function.iterate_add_apply, hm, hn]⟩

lemma sameCyc_symm {perm : ℕ → ℕ} {e : ℕ} (hlt : ∀ i < e, perm i < e)
    (hinj : ∀ i < e, ∀ j < e, perm i = perm j → i = j) {x y : ℕ}
    (hx : x < e) (h : sameCyc perm x y) : sameCyc perm y x := by
  obtain ⟨n, hn⟩ := h
  obtain ⟨c, hc0, _, hcp⟩ := exists_period hlt hinj x hx
  refine ⟨c * n - n, ?_⟩
  rw [← hn, ← Function.iterate_add_apply]
  rw [show c * n - n + n = c * n from by
    have : n ≤ c * n := Nat.le_mul_of_pos_left n hc0
    omega]
  exact iter_period_mul hcp n

lemma sameCyc_fixed {perm : ℕ → ℕ} {x y : ℕ} (hfix : perm x = x)
    (h : sameCyc perm x y) : y = x := by
  obtain ⟨n, hn⟩ := h
  rw [Function.iterate_fixed hfix n] at hn
  exact hn.symm

lemma nontrivial_of_sameCyc {perm : ℕ → ℕ} {e : ℕ}
    (hlt : ∀ i < e, perm i < e)
    (hinj : ∀ i < e, ∀ j < e, perm i = perm j → i = j) {x y : ℕ}
    (hx : x < e) (hnf : perm x ≠ x) (h : sameCyc perm x y) :
    perm y ≠ y := by
  intro hy
  have hyx : sameCyc perm y x := sameCyc_symm hlt hinj hx h
  have := sameCyc_fixed hy hyx
  subst this
  exact hnf hy

/-- Behaviour of the constructor while loop along the cycle of the start
edge: starting at the t-th iterate with the first t iterates already
marked, it lists the remaining cycle elements and marks the whole cycle
visited. -/
lemma traceOrbit_run {perm : ℕ → ℕ} {e : ℕ} (hlt : ∀ i < e, perm i < e)
    (hinj : ∀ i < e, ∀ j < e, perm i = perm j → i = j) {i : ℕ}
    (hi : i < e) {c : ℕ} (hc0 : 0 < c) (hcp : perm^[c] i = i)
    (hcmin : ∀ m, 0 < m → m < c → perm^[m] i ≠ i) {vis : ℕ → Bool}
    (hvisi : vis i = false)
    (hcl : ∀ x y, vis x = true → sameCyc perm x y → vis y = true) :
    ∀ (n t fuel : ℕ), t + n = c → n < fuel →
      ∀ vt : ℕ → Bool,
        (∀ j, vt j = true ↔
          (vis j = true ∨ ∃ m, m < t ∧ perm^[m] i = j)) →
        (traceOrbit perm fuel vt (perm^[t] i)).1 =
            (List.range' t n).map (fun m => perm^[m] i) ∧
          (∀ j, (traceOrbit perm fuel vt (perm^[t] i)).2 j = true ↔
            (vis j = true ∨ ∃ m, m < c ∧ perm^[m] i = j)) := by
  intro n
  induction n with
  | zero =>
    intro t fuel ht hf vt hvt
    have htc : t = c := by omega
    subst htc
    have hvtc : vt (perm^[t] i) = true := by
      rw [hcp, hvt]
      exact Or.inr ⟨0, hc0, rfl⟩
    cases fuel with
    | zero => omega
    | succ f =>
      rw [traceOrbit]
      rw [hvtc]
      norm_num
      exact fun j => hvt j
  | succ n ih =>
    intro t fuel ht hf vt hvt
    have hptf : vt (perm^[t] i) = false := by
      cases hv : vt (perm^[t] i) with
      | false => rfl
      | true =>
        exfalso
        rw [hvt] at hv
        rcases hv with hv | ⟨m, hm, hmeq⟩
        · have hsc : sameCyc perm (perm^[t] i) i := by
            refine ⟨c - t, ?_⟩
            rw [← Function.iterate_add_apply]
            rw [show c - t + t = c from by omega]
            exact hcp
          have hvi := hcl _ _ hv hsc
          rw [hvisi] at hvi
          exact Bool.false_ne_true hvi
        · have hsplit : perm^[m] (perm^[t - m] i) = perm^[m] i := by
            rw [← Function.iterate_add_apply]
            rw [show m + (t - m) = t from by omega]
            exact hmeq.symm
          have heq := iter_inj hlt hinj m _ i
            (iter_lt hlt _ i hi) hi hsplit
          exact hcmin (t - m) (by omega) (by omega) heq
    cases fuel with
    | zero => omega
    | succ f =>
      rw [traceOrbit]
      rw [hptf]
      norm_num
      have hnext : perm (perm^[t] i) = perm^[t + 1] i := by
        rw [Function.iterate_succ_apply']
      rw [hnext]
      have hchar : ∀ j, Function.update vt (perm^[t] i) true j = true ↔
          (vis j = true ∨ ∃ m, m < t + 1 ∧ perm^[m] i = j) := by
        intro j
        by_cases hj : j = perm^[t] i
        · subst hj
          rw [Function.update_same]
          constructor
          · intro _
            exact Or.inr ⟨t, by omega, rfl⟩
          · intro _; rfl
        · rw [Function.update_noteq hj]
          rw [hvt]
          constructor
          · rintro (h | ⟨m, hm, hmeq⟩)
            · exact Or.inl h
            · exact Or.inr ⟨m, by omega, hmeq⟩
          · rintro (h | ⟨m, hm, hmeq⟩)
            · exact Or.inl h
            · refine Or.inr ⟨m, ?_, hmeq⟩
              rcases Nat.lt_or_ge m t with h2 | h2
              · exact h2
              · exfalso
                have hmt : m = t := by omega
                subst hmt
                exact hj hmeq.symm
      obtain ⟨ih1, ih2⟩ := ih (t + 1) f (by omega) (by omega)
        (Function.update vt (perm^[t] i) true) hchar
      constructor
      · rw [List.range'_succ, List.map_cons]
        rw [← ih1]
      · exact ih2

/-- Full characterisation of one constructor while loop call on an
unvisited edge whose cycle is disjoint from the visited set: the traced
orbit is exactly the cycle of the start edge, it is non-trivial exactly
when the edge is not fixed, and the visited set grows by the cycle. -/
lemma traceOrbit_full {perm : ℕ → ℕ} {e : ℕ} (hlt : ∀ i < e, perm i < e)
    (hinj : ∀ i < e, ∀ j < e, perm i = perm j → i = j) {i : ℕ}
    (hi : i < e) {vis : ℕ → Bool} (hvisi : vis i = false)
    (hcl : ∀ x y, vis x = true → sameCyc perm x y → vis y = true) :
    (∀ j, j ∈ (traceOrbit perm (e + 1) vis i).1 ↔ sameCyc perm i j) ∧
    (1 < (traceOrbit perm (e + 1) vis i).1.length ↔ perm i ≠ i) ∧
    (∀ j, (traceOrbit perm (e + 1) vis i).2 j = true ↔
      (vis j = true ∨ sameCyc perm i j)) ∧
    (traceOrbit perm (e + 1) vis i).1 ≠ [] := by
  obtain ⟨c0, hc00, hc0e, hc0p⟩ := exists_period hlt hinj i hi
  have hPex : ∃ m, 0 < m ∧ perm^[m] i = i := ⟨c0, hc00, hc0p⟩
  have hc0 : 0 < Nat.find hPex := (Nat.find_spec hPex).1
  have hcp : perm^[Nat.find hPex] i = i := (Nat.find_spec hPex).2
  have hce : Nat.find hPex ≤ e :=
    le_trans (Nat.find_min' hPex ⟨hc00, hc0p⟩) hc0e
  have hcmin : ∀ m, 0 < m → m < Nat.find hPex → perm^[m] i ≠ i :=
    fun m h1 h2 hm => Nat.find_min hPex h2 ⟨h1, hm⟩
  have hchar0 : ∀ j, vis j = true ↔
      (vis j = true ∨ ∃ m, m < 0 ∧ perm^[m] i = j) := by
    intro j
    constructor
    · exact Or.inl
    · rintro (h | ⟨m, hm, _⟩)
      · exact h
      · omega
  obtain ⟨h1, h2⟩ := traceOrbit_run hlt hinj hi hc0 hcp hcmin hvisi hcl
    (Nat.find hPex) 0 (e + 1) (by omega) (by omega) vis hchar0
  rw [Function.iterate_zero_apply] at h1 h2
  have hmem : ∀ j, j ∈ (traceOrbit perm (e + 1) vis i).1 ↔
      sameCyc perm i j := by
    intro j
    rw [h1, List.mem_map]
    constructor
    · rintro ⟨m, _, hmj⟩
      exact ⟨m, hmj⟩
    · rintro ⟨n, hn⟩
      refine ⟨n % Nat.find hPex, ?_, ?_⟩
      · rw [List.mem_range'_1]
        constructor
        · omega
        · have := Nat.mod_lt n hc0
          omega
      · rw [← hn]
        conv_rhs => rw [show n = n % Nat.find hPex +
            Nat.find hPex * (n / Nat.find hPex) from
          (Nat.mod_add_div n (Nat.find hPex)).symm]
        rw [Function.iterate_add_apply]
        rw [iter_period_mul hcp]
  have hlen : (traceOrbit perm (e + 1) vis i).1.length = Nat.find hPex := by
    rw [h1]
    simp
  have hvis' : ∀ j, (traceOrbit perm (e + 1) vis i).2 j = true ↔
      (vis j = true ∨ sameCyc perm i j) := by
    intro j
    rw [h2 j]
    constructor
    · rintro (h | ⟨m, _, hmj⟩)
      · exact Or.inl h
      · exact Or.inr ⟨m, hmj⟩
    · rintro (h | hsc)
      · exact Or.inl h
      · right
        obtain ⟨n, hn⟩ := hsc
        refine ⟨n % Nat.find hPex, by have := Nat.mod_lt n hc0; omega, ?_⟩
        rw [← hn]
        conv_rhs => rw [show n = n % Nat.find hPex +
            Nat.find hPex * (n / Nat.find hPex) from
          (Nat.mod_add_div n (Nat.find hPex)).symm]
        rw [Function.iterate_add_apply]
        rw [iter_period_mul hcp]
  refine ⟨hmem, ?_, hvis', ?_⟩
  · rw [hlen]
    constructor
    · intro hgt hfix
      have hP1 : 0 < 1 ∧ perm^[1] i = i := by
        constructor
        · omega
        · rw [Function.iterate_one]; exact hfix
      have := Nat.find_min' hPex hP1
      omega
    · intro hfix
      rcases Nat.lt_or_ge 1 (Nat.find hPex) with h | h
      · exact h
      · exfalso
        have h1' : Nat.find hPex = 1 := by omega
        apply hfix
        rw [← Function.iterate_one perm]
        rw [← h1']
        exact hcp
  · intro hnil
    rw [← hlen] at hc0
    rw [hnil] at hc0
    simp at hc0

lemma foldl_min_spec : ∀ (xs : List ℕ) (a : ℕ),
    (xs.foldl min a = a ∨ xs.foldl min a ∈ xs) ∧ xs.foldl min a ≤ a ∧
      ∀ x ∈ xs, xs.foldl min a ≤ x := by
  intro xs
  induction xs with
  | nil =>
    intro a
    refine ⟨Or.inl rfl, le_refl a, ?_⟩
    intro x hx
    exact absurd hx (by simp)
  | cons b bs ih =>
    intro a
    rw [List.foldl_cons]
    obtain ⟨hm, hle, hall⟩ := ih (min a b)
    refine ⟨?_, le_trans hle (min_le_left a b), ?_⟩
    · rcases hm with h | h
      · rcases min_choice a b with h2 | h2
        · exact Or.inl (by rw [h, h2])
        · exact Or.inr (by rw [h, h2]; exact List.mem_cons_self b bs)
      · exact Or.inr (List.mem_cons_of_mem b h)
    · intro x hx
      rcases List.mem_cons.mp hx with rfl | hx2
      · exact le_trans hle (min_le_right a x)
      · exact hall x hx2

lemma minElem_spec (l : List ℕ) (h : l ≠ []) :
    minElem l ∈ l ∧ ∀ x ∈ l, minElem l ≤ x := by
  cases l with
  | nil => exact absurd rfl h
  | cons x xs =>
    rw [minElem]
    obtain ⟨hm, hle, hall⟩ := foldl_min_spec xs x
    constructor
    · rcases hm with h2 | h2
      · rw [h2]; exact List.mem_cons_self x xs
      · exact List.mem_cons_of_mem x h2
    · intro y hy
      rcases List.mem_cons.mp hy with rfl | hy2
      · exact hle
      · exact hall y hy2

lemma assignOrbit_eto : ∀ (O : List ℕ) (oid mn : ℕ) (st : SymState)
    (j : ℕ), (assignOrbit O oid mn st).edge_to_orbit j =
      if j ∈ O then (oid : ℤ) else st.edge_to_orbit j := by
  intro O
  induction O with
  | nil => intro oid mn st j; simp [assignOrbit]
  | cons x xs ih =>
    intro oid mn st j
    rw [assignOrbit, List.foldl_cons]
    rw [show ∀ st2 : SymState, xs.foldl (fun t edge_idx =>
        (⟨Function.update t.edge_to_orbit edge_idx (oid : ℤ),
          Function.update t.is_representative edge_idx
            (decide (edge_idx = mn))⟩ : SymState)) st2 =
        assignOrbit xs oid mn st2 from fun st2 => rfl]
    rw [ih]
    by_cases hx : j ∈ xs
    · rw [if_pos hx, if_pos (List.mem_cons_of_mem x hx)]
    · rw [if_neg hx]
      by_cases hjx : j = x
      · subst hjx
        rw [if_pos (List.mem_cons_self j xs)]
        exact Function.update_same j (oid : ℤ) st.edge_to_orbit
      · rw [if_neg (by
          intro h
          rcases List.mem_cons.mp h with h2 | h2
          · exact hjx h2
          · exact hx h2)]
        exact Function.update_noteq hjx (oid : ℤ) st.edge_to_orbit

lemma assignOrbit_rep : ∀ (O : List ℕ) (oid mn : ℕ) (st : SymState)
    (j : ℕ), (assignOrbit O oid mn st).is_representative j =
      if j ∈ O then decide (j = mn) else st.is_representative j := by
  intro O
  induction O with
  | nil => intro oid mn st j; simp [assignOrbit]
  | cons x xs ih =>
    intro oid mn st j
    rw [assignOrbit, List.foldl_cons]
    rw [show ∀ st2 : SymState, xs.foldl (fun t edge_idx =>
        (⟨Function.update t.edge_to_orbit edge_idx (oid : ℤ),
          Function.update t.is_representative edge_idx
            (decide (edge_idx = mn))⟩ : SymState)) st2 =
        assignOrbit xs oid mn st2 from fun st2 => rfl]
    rw [ih]
    by_cases hx : j ∈ xs
    · rw [if_pos hx, if_pos (List.mem_cons_of_mem x hx)]
    · rw [if_neg hx]
      by_cases hjx : j = x
      · subst hjx
        rw [if_pos (List.mem_cons_self j xs)]
        exact Function.update_same j _ st.is_representative
      · rw [if_neg (by
          intro h
          rcases List.mem_cons.mp h with h2 | h2
          · exact hjx h2
          · exact hx h2)]
        exact Function.update_noteq hjx _ st.is_representative

/-- Invariant of the SymmetryFilter constructor loop after the starting
edges below k have been processed: visited is the union of the cycles of
the processed starts; the orbit table is defined exactly on visited
non-fixed edges; equal defined orbit ids characterise being on the same
cycle; the representative flag marks exactly the minimum of each
assigned cycle; all assigned ids are below the orbit counter. -/
def BuildInv (perm : ℕ → ℕ) (e k : ℕ)
    (acc : (ℕ → Bool) × SymState × ℕ) : Prop :=
  (∀ j, acc.1 j = true ↔ (j < e ∧ ∃ i, i < k ∧ sameCyc perm i j)) ∧
  (∀ j, acc.2.1.edge_to_orbit j ≠ -1 →
    (acc.1 j = true ∧ perm j ≠ j)) ∧
  (∀ j, acc.1 j = true → perm j ≠ j → acc.2.1.edge_to_orbit j ≠ -1) ∧
  (∀ i j, acc.2.1.edge_to_orbit i ≠ -1 → acc.2.1.edge_to_orbit j ≠ -1 →
    (acc.2.1.edge_to_orbit i = acc.2.1.edge_to_orbit j ↔
      sameCyc perm i j)) ∧
  (∀ j, acc.2.1.is_representative j = true ↔
    (acc.2.1.edge_to_orbit j ≠ -1 ∧
      ∀ i, sameCyc perm j i → i < e → j ≤ i)) ∧
  (∀ j, acc.2.1.edge_to_orbit j < (acc.2.2 : ℤ))

lemma buildInv_init (perm : ℕ → ℕ) (e : ℕ) :
    BuildInv perm e 0 buildInit := by
  refine ⟨?_, ?_, ?_, ?_, ?_, ?_⟩
  · intro j
    constructor
    · intro h; exact absurd h (by simp [buildInit])
    · rintro ⟨-, i, hi, -⟩; omega
  · intro j h; exact absurd rfl h
  · intro j h; exact absurd h (by simp [buildInit])
  · intro i j hi _; exact absurd rfl hi
  · intro j
    constructor
    · intro h; exact absurd h (by simp [buildInit])
    · rintro ⟨h, -⟩; exact absurd rfl h
  · intro j; norm_num [buildInit]

lemma buildStep_visited {perm : ℕ → ℕ} {e : ℕ}
    {acc : (ℕ → Bool) × SymState × ℕ} {k : ℕ} (h : acc.1 k = true) :
    buildStep perm e acc k = acc := by
  rw [buildStep]
  rw [h]
  norm_num

lemma buildStep_new_big {perm : ℕ → ℕ} {e : ℕ}
    {acc : (ℕ → Bool) × SymState × ℕ} {k : ℕ} (h : acc.1 k = false)
    (hlen : 1 < (traceOrbit perm (e + 1) acc.1 k).1.length) :
    buildStep perm e acc k =
      ((traceOrbit perm (e + 1) acc.1 k).2,
       assignOrbit (traceOrbit perm (e + 1) acc.1 k).1 acc.2.2
         (minElem (traceOrbit perm (e + 1) acc.1 k).1) acc.2.1,
       acc.2.2 + 1) := by
  rw [buildStep]
  rw [h]
  norm_num
  intro h2
  exact absurd hlen (by omega)

lemma buildStep_new_small {perm : ℕ → ℕ} {e : ℕ}
    {acc : (ℕ → Bool) × SymState × ℕ} {k : ℕ} (h : acc.1 k = false)
    (hlen : ¬ 1 < (traceOrbit perm (e + 1) acc.1 k).1.length) :
    buildStep perm e acc k =
      ((traceOrbit perm (e + 1) acc.1 k).2, acc.2.1, acc.2.2) := by
  rw [buildStep]
  rw [h]
  norm_num
  intro h2
  exact absurd h2 hlen

lemma buildInv_step {perm : ℕ → ℕ} {e : ℕ} (hlt : ∀ i < e, perm i < e)
    (hinj : ∀ i < e, ∀ j < e, perm i = perm j → i = j) {k : ℕ}
    (hk : k < e) {acc : (ℕ → Bool) × SymState × ℕ}
    (hInv : BuildInv perm e k acc) :
    BuildInv perm e (k + 1) (buildStep perm e acc k) := by
  obtain ⟨I1, I2, I2b, I3, I4, I5⟩ := hInv
  cases hvk : acc.1 k with
  | true =>
    rw [buildStep_visited hvk]
    refine ⟨?_, I2, I2b, I3, I4, I5⟩
    intro j
    rw [I1 j]
    constructor
    · rintro ⟨hj, i, hik, hsc⟩
      exact ⟨hj, i, by omega, hsc⟩
    · rintro ⟨hj, i, hik1, hsc⟩
      rcases Nat.lt_or_ge i k with h | h
      · exact ⟨hj, i, h, hsc⟩
      · have hik : i = k := by omega
        subst hik
        obtain ⟨-, i0, hi0, hsc0⟩ := (I1 i).mp hvk
        exact ⟨hj, i0, hi0, sameCyc_trans hsc0 hsc⟩
  | false =>
    have hcl : ∀ x y, acc.1 x = true → sameCyc perm x y →
        acc.1 y = true := by
      intro x y hx hsc
      obtain ⟨hxe, i0, hi0, hsc0⟩ := (I1 x).mp hx
      rw [I1 y]
      refine ⟨?_, i0, hi0, sameCyc_trans hsc0 hsc⟩
      obtain ⟨n, hn⟩ := hsc
      rw [← hn]
      exact iter_lt hlt n x hxe
    obtain ⟨hTmem, hTlen, hTvis, hTne⟩ :=
      traceOrbit_full hlt hinj hk hvk hcl
    have hOsub : ∀ j, j ∈ (traceOrbit perm (e + 1) acc.1 k).1 → j < e := by
      intro j hj
      obtain ⟨n, hn⟩ := (hTmem j).mp hj
      rw [← hn]
      exact iter_lt hlt n k hk
    have hI1' : ∀ j, (traceOrbit perm (e + 1) acc.1 k).2 j = true ↔
        (j < e ∧ ∃ i, i < k + 1 ∧ sameCyc perm i j) := by
      intro j
      rw [hTvis j]
      constructor
      · rintro (hv | hsc)
        · obtain ⟨hj, i, hik, h⟩ := (I1 j).mp hv
          exact ⟨hj, i, by omega, h⟩
        · refine ⟨?_, k, by omega, hsc⟩
          obtain ⟨n, hn⟩ := hsc
          rw [← hn]
          exact iter_lt hlt n k hk
      · rintro ⟨hj, i, hik1, hsc⟩
        rcases Nat.lt_or_ge i k with h | h
        · exact Or.inl ((I1 j).mpr ⟨hj, i, h, hsc⟩)
        · have hik : i = k := by omega
          subst hik
          exact Or.inr hsc
    by_cases hlen : 1 < (traceOrbit perm (e + 1) acc.1 k).1.length
    · rw [buildStep_new_big hvk hlen]
      have hknf : perm k ≠ k := hTlen.mp hlen
      obtain ⟨hmnO, hmnle⟩ :=
        minElem_spec (traceOrbit perm (e + 1) acc.1 k).1 hTne
      have hcnt0 : (0 : ℤ) ≤ (acc.2.2 : ℤ) := Int.natCast_nonneg _
      refine ⟨hI1', ?_, ?_, ?_, ?_, ?_⟩
      · intro j hj
        rw [assignOrbit_eto] at hj
        by_cases hjO : j ∈ (traceOrbit perm (e + 1) acc.1 k).1
        · constructor
          · rw [hTvis j]
            exact Or.inr ((hTmem j).mp hjO)
          · exact nontrivial_of_sameCyc hlt hinj hk hknf ((hTmem j).mp hjO)
        · rw [if_neg hjO] at hj
          obtain ⟨hv, hnf⟩ := I2 j hj
          exact ⟨by rw [hTvis j]; exact Or.inl hv, hnf⟩
      · intro j hvj hnf
        rw [assignOrbit_eto]
        by_cases hjO : j ∈ (traceOrbit perm (e + 1) acc.1 k).1
        · rw [if_pos hjO]
          omega
        · rw [if_neg hjO]
          rw [hTvis j] at hvj
          rcases hvj with hv | hsc
          · exact I2b j hv hnf
          · exact absurd ((hTmem j).mpr hsc) hjO
      · intro i j hi hj
        simp only [assignOrbit_eto] at hi hj ⊢
        by_cases hiO : i ∈ (traceOrbit perm (e + 1) acc.1 k).1 <;>
          by_cases hjO : j ∈ (traceOrbit perm (e + 1) acc.1 k).1
        · rw [if_pos hiO, if_pos hjO]
          constructor
          · intro _
            exact sameCyc_trans
              (sameCyc_symm hlt hinj hk ((hTmem i).mp hiO))
              ((hTmem j).mp hjO)
          · intro _; rfl
        · rw [if_pos hiO, if_neg hjO]
          rw [if_neg hjO] at hj
          have hjlt := I5 j
          constructor
          · intro h
            exfalso
            omega
          · intro hsc
            exfalso
            have hscj : sameCyc perm k j :=
              sameCyc_trans ((hTmem i).mp hiO) hsc
            exact hjO ((hTmem j).mpr hscj)
        · rw [if_neg hiO, if_pos hjO]
          rw [if_neg hiO] at hi
          have hilt := I5 i
          constructor
          · intro h
            exfalso
            omega
          · intro hsc
            exfalso
            have hie : i < e := ((I1 i).mp (I2 i hi).1).1
            have hsci : sameCyc perm k i :=
              sameCyc_trans ((hTmem j).mp hjO)
                (sameCyc_symm hlt hinj hie hsc)
            exact hiO ((hTmem i).mpr hsci)
        · rw [if_neg hiO, if_neg hjO]
          rw [if_neg hiO] at hi
          rw [if_neg hjO] at hj
          exact I3 i j hi hj
      · intro j
        rw [assignOrbit_rep, assignOrbit_eto]
        by_cases hjO : j ∈ (traceOrbit perm (e + 1) acc.1 k).1
        · rw [if_pos hjO, if_pos hjO]
          have hsckj := (hTmem j).mp hjO
          constructor
          · intro hdec
            have hjmn : j = minElem (traceOrbit perm (e + 1) acc.1 k).1 :=
              of_decide_eq_true hdec
            refine ⟨by omega, ?_⟩
            intro i hsc hie
            have hsci : sameCyc perm k i := sameCyc_trans hsckj hsc
            have hiO := (hTmem i).mpr hsci
            rw [hjmn]
            exact hmnle i hiO
          · rintro ⟨-, hmin⟩
            have hsckmn := (hTmem _).mp hmnO
            have hmne : minElem (traceOrbit perm (e + 1) acc.1 k).1 < e :=
              hOsub _ hmnO
            have hjmn : sameCyc perm j
                (minElem (traceOrbit perm (e + 1) acc.1 k).1) :=
              sameCyc_trans (sameCyc_symm hlt hinj hk hsckj) hsckmn
            have h1 : j ≤ minElem (traceOrbit perm (e + 1) acc.1 k).1 :=
              hmin _ hjmn hmne
            have h2 : minElem (traceOrbit perm (e + 1) acc.1 k).1 ≤ j :=
              hmnle j hjO
            exact decide_eq_true (by omega)
        · rw [if_neg hjO, if_neg hjO]
          exact I4 j
      · intro j
        rw [assignOrbit_eto]
        by_cases hjO : j ∈ (traceOrbit perm (e + 1) acc.1 k).1
        · rw [if_pos hjO]
          push_cast
          omega
        · rw [if_neg hjO]
          have := I5 j
          push_cast
          omega
    · rw [buildStep_new_small hvk hlen]
      have hkfix : perm k = k := by
        by_contra h
        exact hlen (hTlen.mpr h)
      refine ⟨hI1', ?_, ?_, I3, I4, I5⟩
      · intro j hj
        obtain ⟨hv, hnf⟩ := I2 j hj
        exact ⟨by rw [hTvis j]; exact Or.inl hv, hnf⟩
      · intro j hvj hnf
        rw [hTvis j] at hvj
        rcases hvj with hv | hsc
        · exact I2b j hv hnf
        · exfalso
          have hjk := sameCyc_fixed hkfix hsc
          subst hjk
          exact hnf hkfix

lemma buildInv_all {perm : ℕ → ℕ} {e : ℕ} (hlt : ∀ i < e, perm i < e)
    (hinj : ∀ i < e, ∀ j < e, perm i = perm j → i = j) :
    ∀ k, k ≤ e →
      BuildInv perm e k ((List.range k).foldl (buildStep perm e) buildInit) := by
  intro k
  induction k with
  | zero =>
    intro _
    exact buildInv_init perm e
  | succ k ih =>
    intro hk
    rw [List.range_succ, List.foldl_append, List.foldl_cons, List.foldl_nil]
    exact buildInv_step hlt hinj (by omega) (ih (by omega))

lemma buildStep_eto_nonneg {perm : ℕ → ℕ} {e : ℕ}
    {acc : (ℕ → Bool) × SymState × ℕ} {k : ℕ}
    (h : ∀ j, acc.2.1.edge_to_orbit j = -1 ∨ 0 ≤ acc.2.1.edge_to_orbit j) :
    ∀ j, (buildStep perm e acc k).2.1.edge_to_orbit j = -1 ∨
      0 ≤ (buildStep perm e acc k).2.1.edge_to_orbit j := by
  intro j
  cases hv : acc.1 k with
  | true =>
    rw [buildStep_visited hv]
    exact h j
  | false =>
    by_cases hlen : 1 < (traceOrbit perm (e + 1) acc.1 k).1.length
    · rw [buildStep_new_big hv hlen]
      simp only [assignOrbit_eto]
      by_cases hjO : j ∈ (traceOrbit perm (e + 1) acc.1 k).1
      · rw [if_pos hjO]
        right
        exact Int.natCast_nonneg _
      · rw [if_neg hjO]
        exact h j
    · rw [buildStep_new_small hv hlen]
      exact h j

lemma buildFold_eto_nonneg (perm : ℕ → ℕ) (e : ℕ) :
    ∀ (L : List ℕ) (acc : (ℕ → Bool) × SymState × ℕ),
      (∀ j, acc.2.1.edge_to_orbit j = -1 ∨ 0 ≤ acc.2.1.edge_to_orbit j) →
      ∀ j, (L.foldl (buildStep perm e) acc).2.1.edge_to_orbit j = -1 ∨
        0 ≤ (L.foldl (buildStep perm e) acc).2.1.edge_to_orbit j := by
  intro L
  induction L with
  | nil => intro acc h; exact h
  | cons i L ih =>
    intro acc h
    rw [List.foldl_cons]
    exact ih (buildStep perm e acc i) (buildStep_eto_nonneg h)

/-- The facts about the finished lookup tables that the getChild phase
relies on: orbit entries are -1 or a genuine id; an entry is assigned
exactly on the non-fixed edges below e; equal assigned ids mean same
cycle; the representative flag marks the minimum edge of an assigned
cycle. -/
def SymTables (perm : ℕ → ℕ) (e : ℕ) (st : SymState) : Prop :=
  (∀ j, st.edge_to_orbit j = -1 ∨ 0 ≤ st.edge_to_orbit j) ∧
  (∀ j, st.edge_to_orbit j ≠ -1 → j < e ∧ perm j ≠ j) ∧
  (∀ j, j < e → perm j ≠ j → st.edge_to_orbit j ≠ -1) ∧
  (∀ i j, st.edge_to_orbit i ≠ -1 → st.edge_to_orbit j ≠ -1 →
    (st.edge_to_orbit i = st.edge_to_orbit j ↔ sameCyc perm i j)) ∧
  (∀ j, st.is_representative j = true ↔
    (st.edge_to_orbit j ≠ -1 ∧ ∀ i, sameCyc perm j i → i < e → j ≤ i))

lemma symTables_buildSym {perm : ℕ → ℕ} {e : ℕ} (hlt : ∀ i < e, perm i < e)
    (hinj : ∀ i < e, ∀ j < e, perm i = perm j → i = j) :
    SymTables perm e (buildSym e perm).1 := by
  obtain ⟨I1, I2, I2b, I3, I4, I5⟩ := buildInv_all hlt hinj e le_rfl
  have hNN := buildFold_eto_nonneg perm e (List.range e) buildInit
    (fun j => Or.inl rfl)
  have hsame : (buildSym e perm).1 =
      ((List.range e).foldl (buildStep perm e) buildInit).2.1 := rfl
  rw [hsame]
  refine ⟨hNN, ?_, ?_, I3, I4⟩
  · intro j hj
    obtain ⟨hv, hnf⟩ := I2 j hj
    exact ⟨((I1 j).mp hv).1, hnf⟩
  · intro j hje hnf
    exact I2b j ((I1 j).mpr ⟨hje, j, hje, sameCyc_refl perm j⟩) hnf

lemma exists_least {P : ℕ → Prop} (h : ∃ n, P n) :
    ∃ n, P n ∧ ∀ m, P m → n ≤ m := by
  classical
  exact ⟨Nat.find h, Nat.find_spec h, fun m hm => Nat.find_min' h hm⟩

lemma rep_unique {perm : ℕ → ℕ} {e : ℕ} (hlt : ∀ i < e, perm i < e)
    (hinj : ∀ i < e, ∀ j < e, perm i = perm j → i = j) {st : SymState}
    (hT : SymTables perm e st) {r1 r2 : ℕ}
    (h1 : st.is_representative r1 = true)
    (h2 : st.is_representative r2 = true)
    (heq : st.edge_to_orbit r1 = st.edge_to_orbit r2) : r1 = r2 := by
  obtain ⟨-, T2, -, T4, T5⟩ := hT
  obtain ⟨h1e, h1min⟩ := (T5 r1).mp h1
  obtain ⟨h2e, h2min⟩ := (T5 r2).mp h2
  have hsc : sameCyc perm r1 r2 := (T4 r1 r2 h1e h2e).mp heq
  have hr1e : r1 < e := (T2 r1 h1e).1
  have hr2e : r2 < e := (T2 r2 h2e).1
  have hle1 : r1 ≤ r2 := h1min r2 hsc hr2e
  have hle2 : r2 ≤ r1 := h2min r1 (sameCyc_symm hlt hinj hr1e hsc) hr1e
  omega

lemma rep_exists {perm : ℕ → ℕ} {e : ℕ} (hlt : ∀ i < e, perm i < e)
    (hinj : ∀ i < e, ∀ j < e, perm i = perm j → i = j) {st : SymState}
    (hT : SymTables perm e st) {j : ℕ}
    (hj : st.edge_to_orbit j ≠ -1) :
    ∃ r, r ≤ j ∧ st.is_representative r = true ∧
      st.edge_to_orbit r = st.edge_to_orbit j := by
  obtain ⟨-, T2, T3, T4, T5⟩ := hT
  obtain ⟨hje, hjnf⟩ := T2 j hj
  obtain ⟨r, ⟨hscr, hre⟩, hrmin⟩ :=
    exists_least (P := fun i => sameCyc perm j i ∧ i < e)
      ⟨j, sameCyc_refl perm j, hje⟩
  have hrnf : perm r ≠ r := nontrivial_of_sameCyc hlt hinj hje hjnf hscr
  have hreto : st.edge_to_orbit r ≠ -1 := T3 r hre hrnf
  have hscrj : sameCyc perm r j := sameCyc_symm hlt hinj hje hscr
  refine ⟨r, hrmin j ⟨sameCyc_refl perm j, hje⟩, ?_, (T4 r j hreto hj).mpr hscrj⟩
  rw [T5 r]
  refine ⟨hreto, ?_⟩
  intro i hsci hie
  exact hrmin i ⟨sameCyc_trans hscr hsci, hie⟩

lemma symGetChild_rep1 {e : ℕ} {st : SymState} {mask level : ℕ}
    (h0 : 0 ≤ st.edge_to_orbit (e - level))
    (hrep : st.is_representative (e - level) = true) :
    symGetChild e st mask level 1 =
      (mask ||| bitAt (st.edge_to_orbit (e - level)).toNat,
       if level = 1 then -1 else (level : ℤ) - 1) := by
  rw [symGetChild]
  simp only [hrep]
  rw [if_pos h0]
  norm_num

lemma symGetChild_rep0 {e : ℕ} {st : SymState} {mask level : ℕ}
    (h0 : 0 ≤ st.edge_to_orbit (e - level))
    (hrep : st.is_representative (e - level) = true) :
    symGetChild e st mask level 0 =
      (mask, if level = 1 then -1 else (level : ℤ) - 1) := by
  rw [symGetChild]
  simp only [hrep]
  rw [if_pos h0]
  norm_num

lemma symGetChild_nonrep_mismatch0 {e : ℕ} {st : SymState} {mask level : ℕ}
    (h0 : 0 ≤ st.edge_to_orbit (e - level))
    (hrep : st.is_representative (e - level) = false)
    (hbit : mask.testBit (st.edge_to_orbit (e - level)).toNat = true) :
    symGetChild e st mask level 0 = (mask, 0) := by
  rw [symGetChild]
  simp only [hrep]
  rw [if_pos h0]
  rw [if_neg Bool.false_ne_true]
  rw [if_pos ⟨(and_bitAt_ne_zero mask _).mpr hbit, trivial⟩]

lemma symGetChild_nonrep_mismatch1 {e : ℕ} {st : SymState} {mask level : ℕ}
    (h0 : 0 ≤ st.edge_to_orbit (e - level))
    (hrep : st.is_representative (e - level) = false)
    (hbit : mask.testBit (st.edge_to_orbit (e - level)).toNat = false) :
    symGetChild e st mask level 1 = (mask, 0) := by
  rw [symGetChild]
  simp only [hrep]
  rw [if_pos h0]
  rw [if_neg Bool.false_ne_true]
  have hb : ¬ (mask &&& bitAt (st.edge_to_orbit (e - level)).toNat ≠ 0) := by
    rw [and_bitAt_ne_zero, hbit]
    exact Bool.false_ne_true
  rw [if_neg (fun h => Nat.one_ne_zero h.2)]
  rw [if_pos ⟨hb, trivial⟩]

lemma symGetChild_nonrep_match1 {e : ℕ} {st : SymState} {mask level : ℕ}
    (h0 : 0 ≤ st.edge_to_orbit (e - level))
    (hrep : st.is_representative (e - level) = false)
    (hbit : mask.testBit (st.edge_to_orbit (e - level)).toNat = true) :
    symGetChild e st mask level 1 =
      (mask, if level = 1 then -1 else (level : ℤ) - 1) := by
  rw [symGetChild]
  simp only [hrep]
  rw [if_pos h0]
  rw [if_neg Bool.false_ne_true]
  have hb : mask &&& bitAt (st.edge_to_orbit (e - level)).toNat ≠ 0 :=
    (and_bitAt_ne_zero mask _).mpr hbit
  rw [if_neg (fun h => Nat.one_ne_zero h.2)]
  rw [if_neg (fun h => h.1 hb)]

lemma symGetChild_nonrep_match0 {e : ℕ} {st : SymState} {mask level : ℕ}
    (h0 : 0 ≤ st.edge_to_orbit (e - level))
    (hrep : st.is_representative (e - level) = false)
    (hbit : mask.testBit (st.edge_to_orbit (e - level)).toNat = false) :
    symGetChild e st mask level 0 =
      (mask, if level = 1 then -1 else (level : ℤ) - 1) := by
  rw [symGetChild]
  simp only [hrep]
  rw [if_pos h0]
  rw [if_neg Bool.false_ne_true]
  have hb : ¬ (mask &&& bitAt (st.edge_to_orbit (e - level)).toNat ≠ 0) := by
    rw [and_bitAt_ne_zero, hbit]
    exact Bool.false_ne_true
  rw [if_neg (fun h => hb h.1)]
  rw [if_neg (fun h => Nat.zero_ne_one h.2)]

/-- Invariant of the recorded-decision bitmask during the getChild phase:
bit b is set exactly when some already processed representative of the
orbit with id b selected its edge. -/
def maskInvP (st : SymState) (S : ℕ → Bool) (k mask : ℕ) : Prop :=
  ∀ b : ℕ, mask.testBit b = true ↔
    ∃ r, r < k ∧ st.is_representative r = true ∧
      st.edge_to_orbit r = (b : ℤ) ∧ S r = true

/-- The edges from index k on are consistent with their orbit
representatives: every non-representative member of a non-trivial orbit
agrees with the representative of its orbit. -/
def symOkFrom (st : SymState) (S : ℕ → Bool) (e k : ℕ) : Prop :=
  ∀ j, k ≤ j → j < e → st.edge_to_orbit j ≠ -1 →
    st.is_representative j = false →
    ∀ r, st.is_representative r = true →
      st.edge_to_orbit r = st.edge_to_orbit j → S j = S r

lemma symRunFrom_char {perm : ℕ → ℕ} {e : ℕ} (hlt : ∀ i < e, perm i < e)
    (hinj : ∀ i < e, ∀ j < e, perm i = perm j → i = j) {st : SymState}
    (hT : SymTables perm e st) (S : ℕ → Bool) :
    ∀ l, l ≤ e → ∀ mask, maskInvP st S (e - l) mask →
      (symRunFrom e st S mask l = true ↔ symOkFrom st S e (e - l)) := by
  have T1 := hT.1
  have T5 := hT.2.2.2.2
  intro l
  induction l with
  | zero =>
    intro _ mask _
    constructor
    · intro _ j hj1 hj2 _ _ _ _ _
      omega
    · intro _
      rfl
  | succ l ih =>
    intro hle mask hmask
    have hke : e - (l + 1) < e := by omega
    have hkk : e - l = e - (l + 1) + 1 := by omega
    rcases T1 (e - (l + 1)) with hneg | h0
    · have hiff : symOkFrom st S e (e - (l + 1)) ↔
          symOkFrom st S e (e - l) := by
        constructor
        · intro h j hj1 hj2
          exact h j (by omega) hj2
        · intro h j hj1 hj2 hj3 hj4
          rcases Nat.lt_or_ge j (e - l) with hlt2 | hge
          · have hjeq : j = e - (l + 1) := by omega
            subst hjeq
            exact absurd hneg hj3
          · exact h j hge hj2 hj3 hj4
      rw [symRunFrom]
      rw [symGetChild_trivial hneg]
      rcases Nat.eq_zero_or_pos l with hl0 | hlpos
      · subst hl0
        norm_num
        refine hiff.mpr ?_
        intro j hj1 hj2 hj3 hj4
        rcases Nat.lt_or_ge j (e - 0) with hlt2 | hge
        · have hjeq : j = e - 1 := by omega
          subst hjeq
          exact absurd hneg hj3
        · omega
      · have h1 : l + 1 ≠ 1 := by omega
        have h2 : ((l : ℤ) + 1 - 1 ≠ 0) := by
          have : (1 : ℤ) ≤ (l : ℤ) := by exact_mod_cast hlpos
          omega
        have h3 : ((l : ℤ) + 1 - 1 ≠ -1) := by
          have : (1 : ℤ) ≤ (l : ℤ) := by exact_mod_cast hlpos
          omega
        simp only [h1, if_false, Nat.cast_add, Nat.cast_one]
        simp only [h2, if_false, h3, if_false]
        have hmask2 : maskInvP st S (e - l) mask := by
          intro b
          rw [hmask b]
          constructor
          · rintro ⟨r, hr1, hr2, hr3, hr4⟩
            exact ⟨r, by omega, hr2, hr3, hr4⟩
          · rintro ⟨r, hr1, hr2, hr3, hr4⟩
            refine ⟨r, ?_, hr2, hr3, hr4⟩
            rcases Nat.lt_or_ge r (e - (l + 1)) with h | h
            · exact h
            · exfalso
              have hreq : r = e - (l + 1) := by omega
              rw [hreq] at hr2
              exact ((T5 (e - (l + 1))).mp hr2).1 hneg
        rw [ih (by omega) mask hmask2]
        exact hiff.symm
    · have hne2 : st.edge_to_orbit (e - (l + 1)) ≠ -1 := by omega
      have hcast : ((st.edge_to_orbit (e - (l + 1))).toNat : ℤ) =
          st.edge_to_orbit (e - (l + 1)) := Int.toNat_of_nonneg h0
      cases hrep : st.is_representative (e - (l + 1)) with
      | true =>
        have hiff : symOkFrom st S e (e - (l + 1)) ↔
            symOkFrom st S e (e - l) := by
          constructor
          · intro h j hj1 hj2
            exact h j (by omega) hj2
          · intro h j hj1 hj2 hj3 hj4
            rcases Nat.lt_or_ge j (e - l) with hlt2 | hge
            · have hjeq : j = e - (l + 1) := by omega
              subst hjeq
              rw [hj4] at hrep
              exact absurd hrep Bool.false_ne_true
            · exact h j hge hj2 hj3 hj4
        rw [symRunFrom]
        cases hS : S (e - (l + 1)) with
        | true =>
          rw [if_pos rfl]
          rw [symGetChild_rep1 h0 hrep]
          have hmask2 : maskInvP st S (e - l)
              (mask ||| bitAt (st.edge_to_orbit (e - (l + 1))).toNat) := by
            intro b
            rw [Nat.testBit_lor]
            constructor
            · intro h
              cases hm : Nat.testBit mask b with
              | true =>
                obtain ⟨r, hr1, hr2, hr3, hr4⟩ := (hmask b).mp hm
                exact ⟨r, by omega, hr2, hr3, hr4⟩
              | false =>
                rw [hm, Bool.false_or] at h
                by_cases hb : (st.edge_to_orbit (e - (l + 1))).toNat = b
                · refine ⟨e - (l + 1), by omega, hrep, ?_, hS⟩
                  rw [← hcast, hb]
                · rw [testBit_bitAt_of_ne hb] at h
                  exact absurd h Bool.false_ne_true
            · rintro ⟨r, hr1, hr2, hr3, hr4⟩
              rcases Nat.lt_or_ge r (e - (l + 1)) with h | h
              · rw [Bool.or_eq_true]
                exact Or.inl ((hmask b).mpr ⟨r, h, hr2, hr3, hr4⟩)
              · have hreq : r = e - (l + 1) := by omega
                have hb : (st.edge_to_orbit (e - (l + 1))).toNat = b := by
                  have h5 : ((st.edge_to_orbit (e - (l + 1))).toNat : ℤ) =
                      (b : ℤ) := by
                    rw [hcast, ← hreq, hr3]
                  exact_mod_cast h5
                rw [hb, testBit_bitAt_self, Bool.or_true]
          rcases Nat.eq_zero_or_pos l with hl0 | hlpos
          · subst hl0
            norm_num
            refine hiff.mpr ?_
            intro j hj1 hj2
            exact absurd hj2 (by omega)
          · have h1 : l + 1 ≠ 1 := by omega
            have h2 : ((l : ℤ) + 1 - 1 ≠ 0) := by
              have : (1 : ℤ) ≤ (l : ℤ) := by exact_mod_cast hlpos
              omega
            have h3 : ((l : ℤ) + 1 - 1 ≠ -1) := by
              have : (1 : ℤ) ≤ (l : ℤ) := by exact_mod_cast hlpos
              omega
            simp only [h1, if_false, Nat.cast_add, Nat.cast_one]
            simp only [h2, if_false, h3, if_false]
            rw [ih (by omega) _ hmask2]
            exact hiff.symm
        | false =>
          rw [if_neg Bool.false_ne_true]
          rw [symGetChild_rep0 h0 hrep]
          have hmask2 : maskInvP st S (e - l) mask := by
            intro b
            rw [hmask b]
            constructor
            · rintro ⟨r, hr1, hr2, hr3, hr4⟩
              exact ⟨r, by omega, hr2, hr3, hr4⟩
            · rintro ⟨r, hr1, hr2, hr3, hr4⟩
              refine ⟨r, ?_, hr2, hr3, hr4⟩
              rcases Nat.lt_or_ge r (e - (l + 1)) with h | h
              · exact h
              · exfalso
                have hreq : r = e - (l + 1) := by omega
                subst hreq
                rw [hr4] at hS
                exact Bool.false_ne_true hS.symm
          rcases Nat.eq_zero_or_pos l with hl0 | hlpos
          · subst hl0
            norm_num
            refine hiff.mpr ?_
            intro j hj1 hj2
            exact absurd hj2 (by omega)
          · have h1 : l + 1 ≠ 1 := by omega
            have h2 : ((l : ℤ) + 1 - 1 ≠ 0) := by
              have : (1 : ℤ) ≤ (l : ℤ) := by exact_mod_cast hlpos
              omega
            have h3 : ((l : ℤ) + 1 - 1 ≠ -1) := by
              have : (1 : ℤ) ≤ (l : ℤ) := by exact_mod_cast hlpos
              omega
            simp only [h1, if_false, Nat.cast_add, Nat.cast_one]
            simp only [h2, if_false, h3, if_false]
            rw [ih (by omega) mask hmask2]
            exact hiff.symm
      | false =>
        obtain ⟨r0, hr0le, hr0rep, hr0eto⟩ :=
          rep_exists hlt hinj hT hne2
        have hr0lt : r0 < e - (l + 1) := by
          rcases Nat.lt_or_ge r0 (e - (l + 1)) with h | h
          · exact h
          · exfalso
            have hreq : r0 = e - (l + 1) := by omega
            subst hreq
            rw [hr0rep] at hrep
            exact Bool.false_ne_true hrep.symm
        have hbit : mask.testBit (st.edge_to_orbit (e - (l + 1))).toNat =
            S r0 := by
          cases hSr : S r0 with
          | true =>
            exact (hmask _).mpr ⟨r0, hr0lt, hr0rep,
              by rw [hcast]; exact hr0eto, hSr⟩
          | false =>
            cases htb : mask.testBit
                (st.edge_to_orbit (e - (l + 1))).toNat with
            | false => rfl
            | true =>
              obtain ⟨r, hr1, hr2, hr3, hr4⟩ := (hmask _).mp htb
              have hre : r = r0 := rep_unique hlt hinj hT hr2 hr0rep
                (by rw [hr3, hcast, ← hr0eto])
              subst hre
              rw [hr4] at hSr
              exact absurd hSr.symm Bool.false_ne_true
        have hjk_ok : S (e - (l + 1)) = S r0 →
            ∀ r, st.is_representative r = true →
              st.edge_to_orbit r = st.edge_to_orbit (e - (l + 1)) →
              S (e - (l + 1)) = S r := by
          intro hag r hr hre
          have hre2 : r = r0 := rep_unique hlt hinj hT hr hr0rep
            (by rw [hre, ← hr0eto])
          subst hre2
          exact hag
        have hiff : S (e - (l + 1)) = S r0 →
            (symOkFrom st S e (e - (l + 1)) ↔
              symOkFrom st S e (e - l)) := by
          intro hag
          constructor
          · intro h j hj1 hj2
            exact h j (by omega) hj2
          · intro h j hj1 hj2 hj3 hj4 r hr1 hr2
            rcases Nat.lt_or_ge j (e - l) with hlt2 | hge
            · have hjeq : j = e - (l + 1) := by omega
              subst hjeq
              exact hjk_ok hag r hr1 hr2
            · exact h j hge hj2 hj3 hj4 r hr1 hr2
        have hRHS_false : S (e - (l + 1)) ≠ S r0 →
            ¬ symOkFrom st S e (e - (l + 1)) := by
          intro hne3 h
          exact hne3 (h (e - (l + 1)) le_rfl hke hne2 hrep r0 hr0rep hr0eto)
        rw [symRunFrom]
        cases hS : S (e - (l + 1)) with
        | true =>
          rw [if_pos rfl]
          cases hSr : S r0 with
          | true =>
            rw [hSr] at hbit
            rw [symGetChild_nonrep_match1 h0 hrep hbit]
            have hag : S (e - (l + 1)) = S r0 := by rw [hS, hSr]
            have hmask2 : maskInvP st S (e - l) mask := by
              intro b
              rw [hmask b]
              constructor
              · rintro ⟨r, hr1, hr2, hr3, hr4⟩
                exact ⟨r, by omega, hr2, hr3, hr4⟩
              · rintro ⟨r, hr1, hr2, hr3, hr4⟩
                refine ⟨r, ?_, hr2, hr3, hr4⟩
                rcases Nat.lt_or_ge r (e - (l + 1)) with h | h
                · exact h
                · exfalso
                  have hreq : r = e - (l + 1) := by omega
                  subst hreq
                  rw [hr2] at hrep
                  exact Bool.false_ne_true hrep.symm
            rcases Nat.eq_zero_or_pos l with hl0 | hlpos
            · subst hl0
              norm_num
              refine (hiff hag).mpr ?_
              intro j hj1 hj2
              exact absurd hj2 (by omega)
            · have h1 : l + 1 ≠ 1 := by omega
              have h2 : ((l : ℤ) + 1 - 1 ≠ 0) := by
                have : (1 : ℤ) ≤ (l : ℤ) := by exact_mod_cast hlpos
                omega
              have h3 : ((l : ℤ) + 1 - 1 ≠ -1) := by
                have : (1 : ℤ) ≤ (l : ℤ) := by exact_mod_cast hlpos
                omega
              simp only [h1, if_false, Nat.cast_add, Nat.cast_one]
              simp only [h2, if_false, h3, if_false]
              rw [ih (by omega) mask hmask2]
              exact (hiff hag).symm
          | false =>
            rw [hSr] at hbit
            rw [symGetChild_nonrep_mismatch1 h0 hrep hbit]
            norm_num
            intro h
            exact hRHS_false (by rw [hS, hSr]; decide) h
        | false =>
          rw [if_neg Bool.false_ne_true]
          cases hSr : S r0 with
          | true =>
            rw [hSr] at hbit
            rw [symGetChild_nonrep_mismatch0 h0 hrep hbit]
            norm_num
            intro h
            exact hRHS_false (by rw [hS, hSr]; decide) h
          | false =>
            rw [hSr] at hbit
            rw [symGetChild_nonrep_match0 h0 hrep hbit]
            have hag : S (e - (l + 1)) = S r0 := by rw [hS, hSr]
            have hmask2 : maskInvP st S (e - l) mask := by
              intro b
              rw [hmask b]
              constructor
              · rintro ⟨r, hr1, hr2, hr3, hr4⟩
                exact ⟨r, by omega, hr2, hr3, hr4⟩
              · rintro ⟨r, hr1, hr2, hr3, hr4⟩
                refine ⟨r, ?_, hr2, hr3, hr4⟩
                rcases Nat.lt_or_ge r (e - (l + 1)) with h | h
                · exact h
                · exfalso
                  have hreq : r = e - (l + 1) := by omega
                  subst hreq
                  rw [hr2] at hrep
                  exact Bool.false_ne_true hrep.symm
            rcases Nat.eq_zero_or_pos l with hl0 | hlpos
            · subst hl0
              norm_num
              refine (hiff hag).mpr ?_
              intro j hj1 hj2
              exact absurd hj2 (by omega)
            · have h1 : l + 1 ≠ 1 := by omega
              have h2 : ((l : ℤ) + 1 - 1 ≠ 0) := by
                have : (1 : ℤ) ≤ (l : ℤ) := by exact_mod_cast hlpos
                omega
              have h3 : ((l : ℤ) + 1 - 1 ≠ -1) := by
                have : (1 : ℤ) ≤ (l : ℤ) := by exact_mod_cast hlpos
                omega
              simp only [h1, if_false, Nat.cast_add, Nat.cast_one]
              simp only [h2, if_false, h3, if_false]
              rw [ih (by omega) mask hmask2]
              exact (hiff hag).symm

lemma inv_iter {perm : ℕ → ℕ} {e : ℕ} (hlt : ∀ i < e, perm i < e)
    {S : ℕ → Bool} (h : ∀ i < e, S (perm i) = S i) :
    ∀ n, ∀ i < e, S (perm^[n] i) = S i := by
  intro n
  induction n with
  | zero => intro i _; rfl
  | succ n ih =>
    intro i hi
    rw [Function.iterate_succ_apply', h _ (iter_lt hlt n i hi), ih i hi]

lemma inv_iff_cycles {perm : ℕ → ℕ} {e : ℕ} (hlt : ∀ i < e, perm i < e)
    (S : ℕ → Bool) :
    (∀ i < e, S (perm i) = S i) ↔
      ∀ i < e, ∀ j < e, sameCyc perm i j → S i = S j := by
  constructor
  · intro h i hi j _ hsc
    obtain ⟨n, hn⟩ := hsc
    rw [← hn, inv_iter hlt h n i hi]
  · intro h i hi
    exact (h i hi (perm i) (hlt i hi) (sameCyc_step perm i)).symm

/-- Claim C2: for an edge permutation of the edge indices below e, the
SymmetryFilter run (constructor building the orbit tables, then getChild
driven by the branch values of the edge set S) accepts S exactly when S
is invariant under the permutation; and invariance is equivalent to S
taking a constant value on every orbit of the permutation, which the
filter enforces by recording the representative decision (the minimal
edge of the orbit, decided first) and rejecting any later orbit member
whose branch value disagrees. -/
theorem sym_accepts_iff_g_invariant (e : ℕ) (perm : ℕ → ℕ)
    (hlt : ∀ i < e, perm i < e)
    (hinj : ∀ i < e, ∀ j < e, perm i = perm j → i = j)
    (S : ℕ → Bool) :
    (symAccepts e perm S = true ↔ ∀ i < e, S (perm i) = S i) ∧
    ((∀ i < e, S (perm i) = S i) ↔
      ∀ i < e, ∀ j < e, sameCyc perm i j → S i = S j) := by
  have hT := symTables_buildSym hlt hinj
  have T2 := hT.2.1
  have T3 := hT.2.2.1
  have T4 := hT.2.2.2.1
  have T5 := hT.2.2.2.2
  have hmask0 : maskInvP (buildSym e perm).1 S (e - e) 0 := by
    intro b
    rw [Nat.zero_testBit]
    constructor
    · intro h
      exact absurd h Bool.false_ne_true
    · rintro ⟨r, hr1, -⟩
      omega
  have hchar := symRunFrom_char hlt hinj hT S e le_rfl 0 hmask0
  rw [Nat.sub_self] at hchar
  have hacc : symAccepts e perm S =
      symRunFrom e (buildSym e perm).1 S 0 e := rfl
  refine ⟨?_, inv_iff_cycles hlt S⟩
  rw [hacc, hchar]
  constructor
  · intro hok i hi
    by_cases hfix : perm i = i
    · rw [hfix]
    · have hine : (buildSym e perm).1.edge_to_orbit i ≠ -1 := T3 i hi hfix
      have hpie : perm i < e := hlt i hi
      have hpnf : perm (perm i) ≠ perm i :=
        nontrivial_of_sameCyc hlt hinj hi hfix (sameCyc_step perm i)
      have hpne : (buildSym e perm).1.edge_to_orbit (perm i) ≠ -1 :=
        T3 (perm i) hpie hpnf
      have hsc : sameCyc perm (perm i) i :=
        sameCyc_symm hlt hinj hi (sameCyc_step perm i)
      have heq : (buildSym e perm).1.edge_to_orbit (perm i) =
          (buildSym e perm).1.edge_to_orbit i :=
        (T4 (perm i) i hpne hine).mpr hsc
      obtain ⟨r0, hr0le, hr0rep, hr0eto⟩ := rep_exists hlt hinj hT hine
      have hSi : S i = S r0 := by
        cases hri : (buildSym e perm).1.is_representative i with
        | true =>
          have : i = r0 := rep_unique hlt hinj hT hri hr0rep hr0eto.symm
          rw [this]
        | false =>
          exact hok i (Nat.zero_le i) hi hine hri r0 hr0rep hr0eto
      have hSpi : S (perm i) = S r0 := by
        have hr0pi : (buildSym e perm).1.edge_to_orbit r0 =
            (buildSym e perm).1.edge_to_orbit (perm i) := by
          rw [hr0eto, ← heq]
        cases hri : (buildSym e perm).1.is_representative (perm i) with
        | true =>
          have : perm i = r0 := rep_unique hlt hinj hT hri hr0rep hr0pi.symm
          rw [this]
        | false =>
          exact hok (perm i) (Nat.zero_le _) hpie hpne hri r0 hr0rep hr0pi
      rw [hSpi, hSi]
  · intro hinv
    have hc := (inv_iff_cycles hlt S).mp hinv
    intro j hj0 hje hjne hjrep r hr1 hr2
    have hrne : (buildSym e perm).1.edge_to_orbit r ≠ -1 :=
      ((T5 r).mp hr1).1
    have hre : r < e := (T2 r hrne).1
    have hscrj : sameCyc perm r j := (T4 r j hrne hjne).mp hr2
    exact (hc r hre j hje hscrj).symm

/-- Claim C2 witness at a concrete input: the swap of edges 0 and 1
among two edges, with the edge set containing only edge 0. -/
theorem sym_accepts_iff_g_invariant_witness :
    (symAccepts 2 (fun i => if i = 0 then 1 else if i = 1 then 0 else i)
        (fun j => decide (j = 0)) = true ↔
      ∀ i < 2, (fun j => decide (j = 0))
          ((fun i => if i = 0 then 1 else if i = 1 then 0 else i) i) =
        (fun j => decide (j = 0)) i) ∧
    ((∀ i < 2, (fun j => decide (j = 0))
          ((fun i => if i = 0 then 1 else if i = 1 then 0 else i) i) =
        (fun j => decide (j = 0)) i) ↔
      ∀ i < 2, ∀ j < 2,
        sameCyc (fun i => if i = 0 then 1 else if i = 1 then 0 else i) i j →
          (fun j => decide (j = 0)) i = (fun j => decide (j = 0)) j) :=
  sym_accepts_iff_g_invariant 2
    (fun i => if i = 0 then 1 else if i = 1 then 0 else i)
    (by decide) (by decide) (fun j => decide (j = 0))
